import Mathlib

/-!
# Verification of the openMindMap core (parse/serialize, layout, undo, editing)

Shallow embedding of the repository's core algorithms:

* `src/utils/mindmap-utils.ts` — `cleanTextContent`, `isListItem`,
  `parseListItem`, `parseMarkdownContent`, `generateMarkdownFromNodes`.
* `src/renderers/layout-calculator.ts` — `calculateAllSubtreeDimensions`,
  `setNodePositionsTopDown` / `distributeChildrenVerticalSpace`.
* `UndoManager` (i18n/i18n-manager.ts bundle) — `saveSnapshot`, `undo`,
  `redo`, `deepCloneNode`, `rebuildParentReferences`.
* `NodeEditor` (features/MobileToolbar.ts bundle) — `saveText`, `validateText`.
* `D3InteractionHandler.handleNodeClick` — double-click detection.

Strings are embedded as `List Char`.  JavaScript regular expressions are
translated to the equivalent deterministic character scans (the regexes
used by the source are backtracking-free on the inputs on which they are
applied; this is argued in comments at each definition).
-/

namespace MindMap

/-- JavaScript `\s` (the whitespace characters relevant to this code base:
space, tab, newline, carriage return, form feed, vertical tab). -/
def isWs (c : Char) : Bool :=
  c = ' ' || c = '\t' || c = '\n' || c = '\r' || c = '\x0b' || c = '\x0c'

/-- Leading-whitespace count, JS `line.match(/^\s*/)[0].length`. -/
def indentLen (l : List Char) : Nat :=
  (l.takeWhile isWs).length

/-- JS `String.prototype.trim`. -/
def trim (l : List Char) : List Char :=
  ((l.dropWhile isWs).reverse.dropWhile isWs).reverse

/-- JS `content.split('\n')` (keeps empty segments, including a trailing one). -/
def splitNl (l : List Char) : List (List Char) :=
  match l with
  | [] => [[]]
  | c :: rest =>
    if c = '\n' then [] :: splitNl rest
    else
      match splitNl rest with
      | [] => [[c]]
      | s :: ss => (c :: s) :: ss

/-- Join lines with `'\n'`, the inverse of `splitNl`. -/
def joinNl : List (List Char) → List Char
  | [] => []
  | [s] => s
  | s :: ss => s ++ '\n' :: joinNl ss

/-! ## cleanTextContent (mindmap-utils.ts)

The source removes every occurrence of the pattern
`\[([a-zA-Z_][a-zA-Z0-9_]*:[^\]]+)\]` in a single left-to-right pass
(JavaScript `String.replace` with the `g` flag does not rescan the text
produced by a removal) and then trims the result. -/

/-- Character class `[a-zA-Z_]`. -/
def isIdentStart (c : Char) : Bool := c.isAlpha || c = '_'

/-- Character class `[a-zA-Z0-9_]`. -/
def isIdentChar (c : Char) : Bool := c.isAlphanum || c = '_'

/-- Given the text following an opening bracket, try to match
`[a-zA-Z_][a-zA-Z0-9_]*:[^\]]+\]` and return the number of characters
consumed (identifier, colon, body and closing bracket).  The character
classes exclude `:` and `]`, so the backtracking JavaScript match is
equivalent to this greedy scan. -/
def matchAttrLen (l : List Char) : Option Nat :=
  match l with
  | [] => none
  | c :: rest =>
    if isIdentStart c then
      match rest.dropWhile isIdentChar with
      | ':' :: r2 =>
        match r2.dropWhile (fun d => !(d = ']')) with
        | ']' :: _ =>
          if (r2.takeWhile (fun d => !(d = ']'))).isEmpty then none
          else
            some (1 + (rest.takeWhile isIdentChar).length + 1 +
              (r2.takeWhile (fun d => !(d = ']'))).length + 1)
        | _ => none
      | _ => none
    else none

/-- Single left-to-right removal pass of `String.replace` with the `g`
flag for the attribute pattern. -/
def removeAttrs : List Char → List Char
  | [] => []
  | c :: rest =>
    if c = '[' then
      match matchAttrLen rest with
      | some k => removeAttrs (rest.drop k)
      | none => c :: removeAttrs rest
    else c :: removeAttrs rest
termination_by l => l.length
decreasing_by
  · simp only [List.length_cons, List.length_drop]
    omega
  · simp
  · simp

/-- Function `cleanTextContent` (mindmap-utils.ts): strip `[key:value]`
attributes, then trim. -/
def cleanTextContent (l : List Char) : List Char :=
  trim (removeAttrs l)

/-! ## List-item recognition and parsing (mindmap-utils.ts) -/

/-- Character class `[ \t]` used for leading indentation in `isListItem`. -/
def isSpaceTab (c : Char) : Bool := c = ' ' || c = '\t'

/-- Character class `[*\-+]`, the bullet markers. -/
def isMarker (c : Char) : Bool := c = '*' || c = '-' || c = '+'

/-- Pattern `\s+\S`: at least one whitespace character followed by a
non-whitespace character. -/
def wsThenNonWs : List Char → Bool
  | [] => false
  | c :: rest => isWs c && !(rest.dropWhile isWs).isEmpty

/-- Function `isListItem` (mindmap-utils.ts): tests
`^[ \t]*[*\-+]\s+\S` or `^[ \t]*\d+\.\s+\S`. -/
def isListItem (l : List Char) : Bool :=
  match l.dropWhile isSpaceTab with
  | [] => false
  | c :: rest =>
    if isMarker c then wsThenNonWs rest
    else
      if (c :: rest).takeWhile Char.isDigit = [] then false
      else
        match (c :: rest).dropWhile Char.isDigit with
        | '.' :: r2 => wsThenNonWs r2
        | _ => false

/-- Function `parseListItem` (mindmap-utils.ts): the regex
`^(\s*)([*\-+]?\d*\.?)\s+(.+)$`, returning (level, cleaned content,
indent length).  The source calls this only on lines accepted by
`isListItem`; on those lines the regex match is deterministic — leading
whitespace into the capture, the bullet or `digits.` marker, the
whitespace run, then the rest of the line as content (which
`cleanTextContent` trims). -/
def parseListItem (l : List Char) : Option (Nat × List Char × Nat) :=
  let ind := l.takeWhile isSpaceTab
  match l.dropWhile isSpaceTab with
  | [] => none
  | c :: rest =>
    let afterMarker : Option (List Char) :=
      if isMarker c then some rest
      else
        if (c :: rest).takeWhile Char.isDigit = [] then none
        else
          match (c :: rest).dropWhile Char.isDigit with
          | '.' :: r2 => some r2
          | _ => none
    match afterMarker with
    | none => none
    | some am =>
      match am with
      | [] => none
      | a :: _ =>
        if isWs a then
          let content := am.dropWhile isWs
          if content.isEmpty then none
          else some (ind.length / 4, cleanTextContent content, ind.length)
        else none

/-! ## The node tree produced by parsing -/

/-- A pure mind-map node: the `text`, `level` and `children` fields of
`MindMapNode`.  Parent references are the inverse of the `children`
relation and are represented implicitly. -/
inductive PTree : Type where
  | mk (text : List Char) (level : Nat) (children : List PTree)

def PTree.text : PTree → List Char
  | .mk t _ _ => t

def PTree.level : PTree → Nat
  | .mk _ l _ => l

def PTree.children : PTree → List PTree
  | .mk _ _ cs => cs

/-- A node still on the parser's `nodeStack`: its text and level, and the
children completed so far.  In the source, children are attached to the
parent object at creation time via a mutable reference; in this pure
embedding a node accumulates its children while it is on the stack and is
attached to its parent when it is popped.  Both views yield the same final
tree, because the parser only ever appends children to nodes on the stack
and appends text to the most recently created node, which is the stack
top. -/
structure OpenNode where
  text : List Char
  level : Nat
  children : List PTree

def OpenNode.close (o : OpenNode) : PTree := .mk o.text o.level o.children

def OpenNode.addChild (o : OpenNode) (t : PTree) : OpenNode :=
  { o with children := o.children ++ [t] }

/-- The `while (nodeStack.length > n) nodeStack.pop()` loop: fold stack
tops into their parents until the stack length is at most `n`.  The head
of the list is the stack top. -/
def closeTo (n : Nat) : List OpenNode → List OpenNode
  | [] => []
  | top :: rest =>
    if rest.length + 1 ≤ n then top :: rest
    else
      match rest with
      | [] => [top]
      | p :: rr => closeTo n (p.addChild top.close :: rr)
termination_by s => s.length

/-- Parser loop state: the node stack (head = top), the indent length of
the last list item (`lastIndentLength`), whether any list item has been
created yet (`lastNode !== null`), and the running `maxLevel`. -/
structure PState where
  spine : List OpenNode
  lastIndent : Nat
  hasItem : Bool
  maxLevel : Nat

/-- One iteration of the line loop of `parseMarkdownContent`. -/
def pstep (st : PState) (line : List Char) : PState :=
  if (trim line).isEmpty then st
  else if isListItem line then
    match parseListItem line with
    | none => st
    | some (level, content, indLen) =>
      let spine1 := closeTo (level + 1) st.spine
      { spine := OpenNode.mk content (level + 1) [] :: spine1,
        lastIndent := indLen,
        hasItem := true,
        maxLevel := max st.maxLevel (level + 1) }
  else
    let currentIndent := indentLen line
    if st.hasItem && decide (st.lastIndent < currentIndent) then
      match st.spine with
      | [] => st
      | top :: rest =>
        let lc := trim line
        if lc.isEmpty then st
        else { st with spine := { top with text := top.text ++ '\n' :: lc } :: rest }
    else st

/-- Collapse the final stack into the root node. -/
def finishSpine (spine : List OpenNode) : PTree :=
  match closeTo 1 spine with
  | r :: _ => r.close
  | [] => PTree.mk [] 0 []

/-- Function `getFileNameWithoutExtension` (mindmap-utils.ts): the suffix
after the last `/` or `\`, with a trailing `.md` removed; `Untitled` for
an empty path. -/
def afterLastSlash (l : List Char) : List Char :=
  l.foldl (fun acc c => if c = '/' || c = '\\' then [] else acc ++ [c]) []

def stripMdSuffix (l : List Char) : List Char :=
  if l.reverse.take 3 = ['d', 'm', '.'] then l.take (l.length - 3) else l

def getFileNameWithoutExtension (fp : List Char) : List Char :=
  if fp.isEmpty then "Untitled".data else stripMdSuffix (afterLastSlash fp)

/-- Removal of the `#mindmap` identifier:
`content.replace(/^#mindmap\s*\n?/, '')`.  The greedy `\s*` swallows every
whitespace character after the literal — including newlines and any
leading indentation of the first following line — after which `\n?`
matches nothing. -/
def stripIdentifier (content : List Char) : List Char :=
  if content.take 8 = "#mindmap".data then (content.drop 8).dropWhile isWs
  else content

/-- Function `parseMarkdownContent` (mindmap-utils.ts), returning the root
node and `maxLevel`. -/
def parseMarkdownContent (content fp : List Char) : PTree × Nat :=
  let lines := splitNl (stripIdentifier content)
  let root : OpenNode := ⟨getFileNameWithoutExtension fp, 0, []⟩
  let st := lines.foldl pstep ⟨[root], 0, false, 0⟩
  (finishSpine st.spine, st.maxLevel)

/-! ## generateMarkdownFromNodes (mindmap-utils.ts) -/

/-- Lines emitted for one node at indent level `il` (the source's
`generateNodeMarkdown`): the list item `{indent}* {first line}`, then the
continuation lines indented two spaces deeper, then the children at
indent level `il + 1`. -/
def serNodeLines (il : Nat) : PTree → List (List Char)
  | .mk tx lv cs =>
    if lv = 0 then []
    else
      let ind := List.replicate (4 * (il - 1)) ' '
      let first :=
        match splitNl tx with
        | [] => []
        | f :: rest =>
          (ind ++ '*' :: ' ' :: f) :: rest.map (fun l2 => ind ++ ' ' :: ' ' :: l2)
      first ++ (cs.attach.map (fun c => serNodeLines (il + 1) c.1)).flatten
termination_by t => sizeOf t
decreasing_by
  have := List.sizeOf_lt_of_mem c.2
  simp only [PTree.mk.sizeOf_spec]
  omega

/-- Append a newline to every line and concatenate (each emitted line ends
with `\n` in the source). -/
def linesToChars (ls : List (List Char)) : List Char :=
  (ls.map (fun l => l ++ ['\n'])).flatten

/-- Function `generateMarkdownFromNodes` (mindmap-utils.ts): the
identifier, a blank line, then each root child serialized starting at its
own level. -/
def generateMarkdownFromNodes (root : PTree) : List Char :=
  "#mindmap\n\n".data ++
    (root.children.map (fun c => linesToChars (serNodeLines c.level c))).flatten

/-! ## Layout (renderers/layout-calculator.ts)

The layout operates on the d3 hierarchy: pass 1 (`eachAfter`, post-order)
writes `nodeWidth`, `nodeHeight`, `subtreeWidth`, `subtreeHeight` into
`node.data`; pass 2 (pre-order) writes `node.x` and `node.y` on the
hierarchy wrappers.  The optional numeric fields of `MindMapNode` are
embedded as plain rationals: pass 1 always writes a node's fields before
any read of them (children are processed first), and every read in the
source is guarded by `|| 0`, which is the identity on defined numbers, so
the initial values are never observable. -/

structure MMNode where
  text : List Char
  level : Nat
  expanded : Bool
  selected : Bool
  hovered : Bool
  nodeWidth : Rat
  nodeHeight : Rat
  subtreeWidth : Rat
  subtreeHeight : Rat
  children : List MMNode

/-- The `totalHeight` accumulation loop shared by
`calculateAllSubtreeDimensions` and `distributeChildrenVerticalSpace`:
add each entry, plus `gap` after every entry except the last. -/
def accHeights (gap : Rat) : List Rat → Rat
  | [] => 0
  | [h] => h
  | h :: rest => h + gap + accHeights gap rest

/-- JavaScript `Math.max(first, ...rest)`. -/
def listMax (x : Rat) (xs : List Rat) : Rat := xs.foldl max x

mutual

/-- Pass 1, `calculateAllSubtreeDimensions`: post-order computation of
`nodeWidth`/`nodeHeight` (from the measurement callback) and
`subtreeWidth`/`subtreeHeight`.  `cb depth text` plays the role of
`nodeDimensionsCallback(node.depth, node.data.text)`, returning
`(width, height)`. -/
def calculateAllSubtreeDimensions (cb : Nat → List Char → Rat × Rat)
    (depth : Nat) (n : MMNode) : MMNode :=
  let cs := calcDimsList cb (depth + 1) n.children
  let dims := cb depth n.text
  match cs with
  | [] =>
    { n with
      children := []
      nodeWidth := dims.1
      nodeHeight := dims.2
      subtreeWidth := dims.1
      subtreeHeight := dims.2 }
  | c0 :: crest =>
    { n with
      children := c0 :: crest
      nodeWidth := dims.1
      nodeHeight := dims.2
      subtreeWidth := max dims.1 (listMax c0.subtreeWidth (crest.map MMNode.subtreeWidth))
      subtreeHeight := max dims.2 (accHeights 10 ((c0 :: crest).map MMNode.subtreeHeight)) }
termination_by sizeOf n
decreasing_by cases n <;> simp

/-- Children are processed first (`eachAfter` visits children before the
parent). -/
def calcDimsList (cb : Nat → List Char → Rat × Rat) (depth : Nat) :
    List MMNode → List MMNode
  | [] => []
  | c :: rest => calculateAllSubtreeDimensions cb depth c :: calcDimsList cb depth rest
termination_by l => sizeOf l
decreasing_by all_goals simp <;> omega

end

/-- A positioned d3 hierarchy node: the (pass-1 updated) data, the depth,
and the `x` (vertical centre) and `y` (horizontal left edge) coordinates
assigned by pass 2. -/
structure HNode where
  data : MMNode
  depth : Nat
  x : Rat
  y : Rat
  children : List HNode

/-- The depth-based horizontal spacing of
`distributeChildrenVerticalSpace`: 80 for the root→first-level edge,
30 for every deeper edge. -/
def horizontalSpacing (parentDepth : Nat) : Rat :=
  if parentDepth = 0 then 80 else 30

mutual

/-- Pass 2, `setNodePositionsTopDown`: place the node at `(x, y)`, then
distribute its children. -/
def setNodePositionsTopDown (depth : Nat) (x y : Rat) (n : MMNode) : HNode :=
  match h : n.children with
  | [] => ⟨n, depth, x, y, []⟩
  | c0 :: crest =>
    let total := accHeights 10 ((c0 :: crest).map MMNode.subtreeHeight)
    ⟨n, depth, x, y,
      placeChildren (depth + 1) (x - total / 2)
        (y + n.nodeWidth + horizontalSpacing depth) (c0 :: crest)⟩
termination_by sizeOf n
decreasing_by rw [← h]; cases n <;> simp

/-- The child loop of `distributeChildrenVerticalSpace`: `currentY` is the
running top edge; each child is centred inside its subtree span and the
accumulator advances by `subtreeHeight + verticalGap` (gap 10).  All
children receive the same horizontal position `childY`
(`parent.y + parent.nodeWidth + horizontalSpacing`), computed by the
caller since it does not depend on the child. -/
def placeChildren (childDepth : Nat) (currentY childY : Rat) :
    List MMNode → List HNode
  | [] => []
  | c :: rest =>
    setNodePositionsTopDown childDepth (currentY + c.subtreeHeight / 2) childY c ::
      placeChildren childDepth (currentY + c.subtreeHeight + 10) childY rest
termination_by l => sizeOf l
decreasing_by all_goals simp <;> omega

end

/-- The `createRecursiveTreeLayout` composition: pass 1 then pass 2 from the
fixed start coordinates `startX = 100`, `startY = 100`. -/
def createRecursiveTreeLayout (cb : Nat → List Char → Rat × Rat) (t : MMNode) : HNode :=
  setNodePositionsTopDown 0 100 100 (calculateAllSubtreeDimensions cb 0 t)

mutual

/-- All nodes of an `MMNode` tree paired with their depth (pre-order). -/
def subnodesD (d : Nat) (n : MMNode) : List (Nat × MMNode) :=
  (d, n) :: subnodesDL (d + 1) n.children
termination_by sizeOf n
decreasing_by cases n <;> simp

def subnodesDL (d : Nat) : List MMNode → List (Nat × MMNode)
  | [] => []
  | c :: rest => subnodesD d c ++ subnodesDL d rest
termination_by l => sizeOf l
decreasing_by all_goals simp <;> omega

end

mutual

/-- All nodes of a positioned hierarchy (pre-order). -/
def hsubnodes (h : HNode) : List HNode :=
  h :: hsubnodesL h.children
termination_by sizeOf h
decreasing_by cases h <;> simp

def hsubnodesL : List HNode → List HNode
  | [] => []
  | c :: rest => hsubnodes c ++ hsubnodesL rest
termination_by l => sizeOf l
decreasing_by all_goals simp <;> omega

end

/-- Everything about a node except the layout-owned fields: text, level,
expanded/selected/hovered flags, and the children structure. -/
inductive Shape : Type where
  | mk (text : List Char) (level : Nat) (expanded selected hovered : Bool)
      (children : List Shape)

mutual

/-- Erase the layout fields of an `MMNode` tree. -/
def eraseMM (n : MMNode) : Shape :=
  .mk n.text n.level n.expanded n.selected n.hovered (eraseMML n.children)
termination_by sizeOf n
decreasing_by cases n <;> simp

def eraseMML : List MMNode → List Shape
  | [] => []
  | c :: rest => eraseMM c :: eraseMML rest
termination_by l => sizeOf l
decreasing_by all_goals simp <;> omega

end

mutual

/-- Erase the layout data of a positioned hierarchy, keeping each node's
non-layout data fields and the hierarchy structure. -/
def eraseH (h : HNode) : Shape :=
  .mk h.data.text h.data.level h.data.expanded h.data.selected h.data.hovered
    (eraseHL h.children)
termination_by sizeOf h
decreasing_by cases h <;> simp

def eraseHL : List HNode → List Shape
  | [] => []
  | c :: rest => eraseH c :: eraseHL rest
termination_by l => sizeOf l
decreasing_by all_goals simp <;> omega

end

/-! ## UndoManager (memento history over full tree snapshots)

To express object identity (sharing) and the mutable `parent` pointers in
a pure model, every node carries an allocation identifier `id`, and
`parent` stores the identifier of the parent object.  Cloning allocates
fresh identifiers from a counter, modelling `{ ...node }` creating a new
object. -/

structure CNode where
  id : Nat
  text : List Char
  level : Nat
  expanded : Bool
  parent : Option Nat
  children : List CNode

structure CData where
  rootNode : Option CNode
  allNodes : List CNode
  maxLevel : Nat

structure UndoManager where
  undoStack : List CData
  redoStack : List CData

/-- The capacity constant `MAX_STACK_SIZE`. -/
def MAX_STACK_SIZE : Nat := 5

mutual

/-- Method `UndoManager.deepCloneNode`: `{ ...node }` (a fresh object with
the same fields), children cloned recursively, `parent` reset to `null`.
The fresh-identifier counter `f` is threaded through. -/
def deepCloneNode (f : Nat) (n : CNode) : CNode × Nat :=
  let p := deepCloneList (f + 1) n.children
  ({ n with id := f, parent := none, children := p.1 }, p.2)
termination_by sizeOf n
decreasing_by cases n <;> simp

def deepCloneList (f : Nat) : List CNode → List CNode × Nat
  | [] => ([], f)
  | c :: rest =>
    let p := deepCloneNode f c
    let q := deepCloneList p.2 rest
    (p.1 :: q.1, q.2)
termination_by l => sizeOf l
decreasing_by all_goals simp <;> omega

end

mutual

/-- Method `UndoManager.rebuildParentReferences`: set every child's
`parent` to its parent node and recurse. -/
def rebuildParentReferences (n : CNode) : CNode :=
  { n with children := rebuildChildren n.id n.children }
termination_by sizeOf n
decreasing_by cases n <;> simp

/-- In the source the loop sets `child.parent = node` and then recurses
into the child; the recursion never touches the child's own `parent`
field, so setting it after the recursive call is the same function. -/
def rebuildChildren (pid : Nat) : List CNode → List CNode
  | [] => []
  | c :: rest =>
    { rebuildParentReferences c with parent := some pid } :: rebuildChildren pid rest
termination_by l => sizeOf l
decreasing_by all_goals simp <;> omega

end

/-- The snapshot construction shared by `saveSnapshot`, `undo` and `redo`:
clone the root and every entry of `allNodes` (each entry is cloned as a
separate tree, as in the source), then rebuild the root's parent
references. -/
def cloneData (f : Nat) (d : CData) : CData × Nat :=
  let rootPair : Option CNode × Nat :=
    match d.rootNode with
    | none => (none, f)
    | some r =>
      let p := deepCloneNode f r
      (some p.1, p.2)
  let allPair := deepCloneList rootPair.2 d.allNodes
  ({ rootNode := rootPair.1.map rebuildParentReferences
     allNodes := allPair.1
     maxLevel := d.maxLevel }, allPair.2)

/-- Method `UndoManager.saveSnapshot`: push the deep-cloned snapshot,
evict the oldest entry (`Array.shift`) when the stack exceeds
`MAX_STACK_SIZE`, and clear the redo stack. -/
def saveSnapshot (m : UndoManager) (f : Nat) (d : CData) : UndoManager :=
  let pushed := m.undoStack ++ [(cloneData f d).1]
  { undoStack := if MAX_STACK_SIZE < pushed.length then pushed.drop 1 else pushed
    redoStack := [] }

/-- Method `UndoManager.undo`: `null` when the undo stack is empty;
otherwise push a clone of the current state onto the redo stack and pop
the undo stack. -/
def UndoManager.undo (m : UndoManager) (f : Nat) (cur : CData) :
    Option CData × UndoManager :=
  if m.undoStack.isEmpty then (none, m)
  else
    (m.undoStack.getLast?,
     { undoStack := m.undoStack.dropLast
       redoStack := m.redoStack ++ [(cloneData f cur).1] })

/-- Method `UndoManager.redo`: symmetric to `undo`. -/
def UndoManager.redo (m : UndoManager) (f : Nat) (cur : CData) :
    Option CData × UndoManager :=
  if m.redoStack.isEmpty then (none, m)
  else
    (m.redoStack.getLast?,
     { undoStack := m.undoStack ++ [(cloneData f cur).1]
       redoStack := m.redoStack.dropLast })

mutual

/-- Content of a node tree, with identifiers and parent pointers erased —
the "structurally and content-equivalent" view (texts, levels, expanded
flags, child order). -/
def eraseC (n : CNode) : Shape :=
  .mk n.text n.level n.expanded true true (eraseCL n.children)
termination_by sizeOf n
decreasing_by cases n <;> simp

def eraseCL : List CNode → List Shape
  | [] => []
  | c :: rest => eraseC c :: eraseCL rest
termination_by l => sizeOf l
decreasing_by all_goals simp <;> omega

end

def eraseCData (d : CData) : Option Shape × List Shape × Nat :=
  (d.rootNode.map eraseC, d.allNodes.map eraseC, d.maxLevel)

mutual

/-- All object identifiers occurring in a node tree. -/
def idsOf (n : CNode) : List Nat :=
  n.id :: idsOfL n.children
termination_by sizeOf n
decreasing_by cases n <;> simp

def idsOfL : List CNode → List Nat
  | [] => []
  | c :: rest => idsOf c ++ idsOfL rest
termination_by l => sizeOf l
decreasing_by all_goals simp <;> omega

end

def idsOfData (d : CData) : List Nat :=
  (match d.rootNode with | none => [] | some r => idsOf r) ++
    (d.allNodes.map idsOf).flatten

mutual

/-- Every direct child's `parent` pointer names its actual parent,
recursively (the state `rebuildParentReferences` establishes). -/
def childParentsOK (n : CNode) : Bool :=
  childParentsOKL n.id n.children
termination_by sizeOf n
decreasing_by cases n <;> simp

def childParentsOKL (pid : Nat) : List CNode → Bool
  | [] => true
  | c :: rest =>
    (c.parent == some pid) && childParentsOK c && childParentsOKL pid rest
termination_by l => sizeOf l
decreasing_by all_goals simp <;> omega

end

/-! ## NodeEditor.saveText / validateText (features/MobileToolbar.ts)

`VALIDATION_CONSTANTS` lives in `src/constants/mindmap-constants.ts`,
which is not part of the sources; following the spec ("length ≤ a fixed
maximum (e.g. 10,000 characters), and free of a small set of forbidden
control characters") the two constants are kept as parameters. -/

structure ValidationConsts where
  maxTextLength : Nat
  invalidCharacters : List Char

/-- `NodeEditor.validateText`: non-empty after trimming, within the
length limit, and containing no forbidden character. -/
def validateText (vc : ValidationConsts) (text : List Char) : Bool :=
  if text.isEmpty || (trim text).isEmpty then false
  else if vc.maxTextLength < text.length then false
  else if vc.invalidCharacters.any (fun c => text.contains c) then false
  else true

/-- The `editingState` of `NodeEditor` (nodes are referenced by an
identifier; `editElement` carries the element's current `textContent`). -/
structure EditState where
  isEditing : Bool
  currentNode : Option Nat
  originalText : List Char
  editElement : Option (List Char)

/-- Everything observable about one `saveText` call: the editing state
afterwards, the node's text afterwards, whether the undo-snapshot
callback (`onBeforeTextChange`) fired, whether a validation notification
was shown, and whether the persist callback (`onTextChanged`) fired. -/
structure SaveResult where
  state : EditState
  nodeText : List Char
  snapshotTaken : Bool
  validationShown : Bool
  persisted : Bool

/-- The state `exitEditMode` leaves behind. -/
def exitedState : EditState :=
  { isEditing := false, currentNode := none, originalText := [], editElement := none }

/-- `NodeEditor.saveText`, applied to the state and the edited node's
current text.  Note the early `return` on validation failure: it leaves
the `try` block and skips the `exitEditMode()` call at the end of the
function, so the editing state is left untouched. -/
def saveText (vc : ValidationConsts) (st : EditState) (nodeText : List Char) :
    SaveResult :=
  if !st.isEditing || st.currentNode.isNone || st.editElement.isNone then
    ⟨st, nodeText, false, false, false⟩
  else
    let newText := trim (st.editElement.getD [])
    if !validateText vc newText then
      ⟨st, nodeText, false, true, false⟩
    else if newText = st.originalText then
      ⟨exitedState, nodeText, false, false, false⟩
    else
      ⟨exitedState, newText, true, false, true⟩

/-! ## D3InteractionHandler.handleNodeClick (double-click detection)

Discrete-event model of the click handler together with the JavaScript
timer queue.  `setTimeout` callbacks scheduled by the handler are kept in
a list ordered by creation; before a click at time `t` is processed,
every pending timer whose deadline has passed fires (`fireDue`), and at
the end of a scenario the remaining timers fire (`flushTimers`).  Note
the `else` branch of the source overwrites `this.clickTimeout` without
cancelling the previously scheduled timer, so several timers can be
pending at once, and a firing timer unconditionally clears
`this.clickNode`. -/

inductive ClickAction : Type where
  | select (node : Nat)
  | doubleClick (node : Nat)
deriving DecidableEq, Repr

structure ClickState where
  lastClickTime : Nat
  clickNode : Option Nat
  clickTimeoutId : Option Nat
  timers : List (Nat × Nat × Nat)
  nextId : Nat
deriving DecidableEq, Repr

def initialClickState : ClickState := ⟨0, none, none, [], 0⟩

/-- Fire every pending timer whose deadline is at or before `t`: each one
performs the deferred node selection and then clears `clickTimeout` and
`clickNode`. -/
def fireDue (t : Nat) (st : ClickState) : ClickState × List ClickAction :=
  let due := st.timers.filter (fun x => x.2.1 ≤ t)
  let remaining := st.timers.filter (fun x => !(x.2.1 ≤ t : Bool))
  if due.isEmpty then (st, [])
  else ({ st with timers := remaining, clickTimeoutId := none, clickNode := none },
        due.map (fun x => .select x.2.2))

/-- `handleNodeClick` at time `t` on node `n`: a double click needs
`timeDiff < 300` and the same tracked node; otherwise the click re-arms
tracking and schedules the deferred selection 250 ms later. -/
def handleNodeClick (st : ClickState) (t : Nat) (n : Nat) :
    ClickState × List ClickAction :=
  let timeDiff := t - st.lastClickTime
  if decide (timeDiff < 300) && (st.clickNode == some n) then
    let timers' :=
      match st.clickTimeoutId with
      | some i => st.timers.filter (fun x => !(x.1 == i))
      | none => st.timers
    ({ st with
        lastClickTime := 0
        clickNode := none
        clickTimeoutId := none
        timers := timers' },
     [.doubleClick n])
  else
    ({ st with
        lastClickTime := t
        clickNode := some n
        timers := st.timers ++ [(st.nextId, t + 250, n)]
        clickTimeoutId := some st.nextId
        nextId := st.nextId + 1 },
     [])

/-- Process a click event: first fire the timers that are due, then run
the click handler. -/
def clickEvent (st : ClickState) (t : Nat) (n : Nat) :
    ClickState × List ClickAction :=
  let (st1, a1) := fireDue t st
  let (st2, a2) := handleNodeClick st1 t n
  (st2, a1 ++ a2)

/-- After the last click, the remaining timers eventually fire. -/
def flushTimers (st : ClickState) : List ClickAction :=
  st.timers.map (fun x => .select x.2.2)

/-- Run a scenario: clicks `(time, node)` in chronological order, then
let the pending timers fire. -/
def runClicks (clicks : List (Nat × Nat)) : List ClickAction :=
  let (st, acts) := clicks.foldl
    (fun (p : ClickState × List ClickAction) c =>
      let (st', a) := clickEvent p.1 c.1 c.2
      (st', p.2 ++ a))
    (initialClickState, [])
  acts ++ flushTimers st

/-! ## Specification-side predicates -/

/-- Serialization of a forest of nodes at one indent level (the
concatenation of the per-node lines). -/
def serForestLines (il : Nat) : List PTree → List (List Char)
  | [] => []
  | t :: ts => serNodeLines il t ++ serForestLines il ts

/-- A continuation line as stored inside a node's text: non-empty,
trim-stable (no leading or trailing whitespace) and not itself a list
item. -/
def goodLine (l : List Char) : Bool :=
  !l.isEmpty && (trim l == l) && !isListItem l

/-- A node text that survives re-parsing: the first line is non-empty,
trim-stable and a fixed point of `cleanTextContent`, and every further
line is a well-formed continuation line. -/
def goodText (s : List Char) : Bool :=
  match splitNl s with
  | [] => false
  | f :: rest =>
    !f.isEmpty && (trim f == f) && (cleanTextContent f == f) && rest.all goodLine

mutual

/-- A canonical subtree rooted at level `L`: the node's level is exactly
`L`, its text is well-formed, and the children are canonical at `L + 1`. -/
def canonAt (L : Nat) (t : PTree) : Bool :=
  match t with
  | .mk tx lv cs => (lv == L) && goodText tx && canonForest (L + 1) cs

def canonForest (L : Nat) : List PTree → Bool
  | [] => true
  | t :: ts => canonAt L t && canonForest L ts

end

/-- A canonical parse result: root at level 0, all non-root nodes
canonical (consecutive levels, re-parseable texts). -/
def canonRoot (t : PTree) : Bool :=
  (t.level == 0) && canonForest 1 t.children

mutual

/-- The level invariant of claim C9: every child's `level` is its
parent's `level` plus one. -/
def childLevelsOK (t : PTree) : Bool :=
  childLevelsOKL t.level t.children
termination_by sizeOf t
decreasing_by cases t <;> simp [PTree.children]

def childLevelsOKL (lv : Nat) : List PTree → Bool
  | [] => true
  | c :: rest => (c.level == lv + 1) && childLevelsOK c && childLevelsOKL lv rest
termination_by l => sizeOf l
decreasing_by all_goals simp <;> omega

end

/-- Document check for the amended claim C9: every list item's parsed
indent level exceeds the previous item's level by at most one, and the
first item's level is 0 (`d` is the number of levels currently open). -/
def levelsScan : Nat → List (List Char) → Bool
  | _, [] => true
  | d, l :: rest =>
    if (trim l).isEmpty then levelsScan d rest
    else if isListItem l then
      match parseListItem l with
      | none => levelsScan d rest
      | some (level, _, _) => decide (level ≤ d) && levelsScan (level + 1) rest
    else levelsScan d rest

def docLevelsOK (content : List Char) : Bool :=
  levelsScan 0 (splitNl (stripIdentifier content))

/-- Append completed subtrees to the children of the stack top. -/
def addKids (s : List OpenNode) (ts : List PTree) : List OpenNode :=
  match s with
  | [] => []
  | top :: rest => { top with children := top.children ++ ts } :: rest

/-- Levels `[n-1, n-2, ..., 0]` — the level of each stack entry equals
its distance from the root (stack bottom). -/
def levelsDesc : Nat → List Nat
  | 0 => []
  | n + 1 => n :: levelsDesc n

/-- The stack invariant: from top to bottom the levels are
`len-1, ..., 1, 0`. -/
def spineOK (s : List OpenNode) : Prop :=
  s.map OpenNode.level = levelsDesc s.length

/-- Every completed subtree already attached to a stack entry sits one
level below that entry and itself satisfies the level invariant. -/
def kidsOK (s : List OpenNode) : Prop :=
  ∀ o ∈ s, ∀ t ∈ o.children, t.level = o.level + 1 ∧ childLevelsOK t = true

/-- The per-node dimension property of claim C2, at depth `d`:
`nodeWidth`/`nodeHeight` come from the measurement callback, a leaf's
subtree size is its own size, and a branch's subtree width is the maximum
of its own width and its children's subtree widths while its subtree
height is the maximum of its own height and the children's summed heights
plus `(childCount − 1) × 10`. -/
def dimsOK (cb : Nat → List Char → Rat × Rat) (d : Nat) (m : MMNode) : Prop :=
  m.nodeWidth = (cb d m.text).1 ∧ m.nodeHeight = (cb d m.text).2 ∧
  (m.children = [] → m.subtreeWidth = m.nodeWidth ∧ m.subtreeHeight = m.nodeHeight) ∧
  (m.children ≠ [] →
    (m.subtreeWidth ∈ m.nodeWidth :: m.children.map MMNode.subtreeWidth ∧
      ∀ w ∈ m.nodeWidth :: m.children.map MMNode.subtreeWidth, w ≤ m.subtreeWidth) ∧
    m.subtreeHeight = max m.nodeHeight
      ((m.children.map MMNode.subtreeHeight).sum +
        10 * ((m.children.length - 1 : Nat) : Rat)))

/-- The child-placement chain of claim C3: starting from a running top
edge, each child's vertical centre is the accumulator plus half its
subtree height, and the accumulator then advances by the child's subtree
height plus the vertical gap of 10. -/
def xChain : Rat → List HNode → Prop
  | _, [] => True
  | cy, c :: rest =>
    c.x = cy + c.data.subtreeHeight / 2 ∧ xChain (cy + c.data.subtreeHeight + 10) rest

/-! # Theorems -/

theorem splitNl_ne_nil (l : List Char) : splitNl l ≠ [] := by
  cases l with
  | nil => simp [splitNl]
  | cons c rest =>
    simp only [splitNl]
    split
    · simp
    · cases h : splitNl rest <;> simp

theorem joinNl_splitNl (l : List Char) : joinNl (splitNl l) = l := by
  induction l with
  | nil => rfl
  | cons c rest ih =>
    rcases h : splitNl rest with _ | ⟨s, ss⟩
    · exact absurd h (splitNl_ne_nil rest)
    · rw [h] at ih
      by_cases hc : c = '\n'
      · subst hc
        simp only [splitNl, if_pos rfl, h, joinNl]
        simpa using ih
      · simp only [splitNl, if_neg hc, h]
        cases ss with
        | nil => simp only [joinNl] at ih ⊢; rw [ih]
        | cons s2 ss2 =>
          simp only [joinNl] at ih ⊢
          rw [List.cons_append, ih]

/-! ## Claim C7 — rejected inline edits (NodeEditor.saveText) -/

/-- Claim C7 as stated is false: on a validation failure `saveText`
returns from inside the `try` block before the final `exitEditMode()`
call, so the editing session does **not** end.  Concretely: committing a
whitespace-only text is rejected (text unchanged, notification shown, no
snapshot) but `isEditing` remains `true`. -/
theorem claimC7_counterexample :
    (saveText ⟨10000, []⟩ ⟨true, some 0, ['B'], some [' ']⟩ ['B']).nodeText = ['B'] ∧
    (saveText ⟨10000, []⟩ ⟨true, some 0, ['B'], some [' ']⟩ ['B']).validationShown = true ∧
    (saveText ⟨10000, []⟩ ⟨true, some 0, ['B'], some [' ']⟩ ['B']).snapshotTaken = false ∧
    (saveText ⟨10000, []⟩ ⟨true, some 0, ['B'], some [' ']⟩ ['B']).state.isEditing = true := by
  decide

/-- Claim C7 (amended): committing an inline edit whose trimmed text
fails validation (empty after trimming, over the length limit, or
containing a forbidden character) is rejected — the node's text remains
unchanged, a validation notification is shown, no undo snapshot is taken
and nothing is persisted — but the editing session remains active
exactly as it was (the early `return` skips `exitEditMode`). -/
theorem claimC7 (vc : ValidationConsts) (node : Nat) (orig el nodeText : List Char)
    (h : validateText vc (trim el) = false) :
    saveText vc ⟨true, some node, orig, some el⟩ nodeText =
      ⟨⟨true, some node, orig, some el⟩, nodeText, false, true, false⟩ := by
  simp [saveText, h]

theorem claimC7_witness :
    validateText ⟨10000, []⟩ (trim [' ']) = false ∧
    saveText ⟨10000, []⟩ ⟨true, some 0, ['B'], some [' ']⟩ ['B'] =
      ⟨⟨true, some 0, ['B'], some [' ']⟩, ['B'], false, true, false⟩ :=
  ⟨by decide, claimC7 ⟨10000, []⟩ 0 ['B'] [' '] ['B'] (by decide)⟩

/-! ## Claim C8 — double-click detection (handleNodeClick) -/

/-- Claim C8 as stated is false: two clicks on the same node 270 ms apart
are inside the claimed 300 ms window, yet no double-click is registered —
the 250 ms single-click timer fired in between, performed the selection
and reset the tracked node.  The run produces two plain selections and no
double-click. -/
theorem claimC8_counterexample :
    runClicks [(0, 0), (270, 0)] = [.select 0, .select 0] ∧
    ClickAction.doubleClick 0 ∉ runClicks [(0, 0), (270, 0)] := by
  decide

/-- Claim C8 (amended): the double-click condition tests a 300 ms window,
but the deferred-selection timer scheduled 250 ms after the first click
resets the tracked node when it fires, so (a) two clicks on the same node
register as a double-click only when the second arrives within the 250 ms
timer window, and then the deferred single-click selection is cancelled
(never fired) rather than fired-and-superseded; (b) a lone click fires
its selection only when the 250 ms timer expires; (c) a second click on
the same node between 250 ms and 300 ms finds the tracking reset and
counts as a fresh first click; (d) a click on a different node re-arms
tracking for that node without cancelling the previously scheduled
selection timer, which still fires later. -/
theorem claimC8 (n m t : Nat) (ht : t < 250) (hnm : m ≠ n) :
    runClicks [(0, n), (t, n)] = [.doubleClick n] ∧
    runClicks [(0, n)] = [.select n] ∧
    runClicks [(0, n), (270, n)] = [.select n, .select n] ∧
    runClicks [(0, n), (100, m), (200, m)] = [.doubleClick m, .select n] := by
  refine ⟨?_, ?_, ?_, ?_⟩
  · have h300 : t < 300 := by omega
    have h250 : ¬(250 ≤ t) := by omega
    simp [runClicks, clickEvent, fireDue, handleNodeClick, flushTimers,
      initialClickState, h300, h250]
  · simp [runClicks, clickEvent, fireDue, handleNodeClick, flushTimers,
      initialClickState]
  · simp [runClicks, clickEvent, fireDue, handleNodeClick, flushTimers,
      initialClickState]
  · simp [runClicks, clickEvent, fireDue, handleNodeClick, flushTimers,
      initialClickState, hnm, Ne.symm hnm]

theorem claimC8_witness :
    (100 < 250 ∧ (1 : Nat) ≠ 0) ∧
    runClicks [(0, 0), (100, 0)] = [.doubleClick 0] ∧
    runClicks [(0, 0)] = [.select 0] ∧
    runClicks [(0, 0), (270, 0)] = [.select 0, .select 0] ∧
    runClicks [(0, 0), (100, 1), (200, 1)] = [.doubleClick 1, .select 0] :=
  ⟨⟨by decide, by decide⟩, claimC8 0 1 100 (by decide) (by decide)⟩

/-! ## Claims C5 and C6 — UndoManager -/

theorem cnode_ind (P : CNode → Prop)
    (step : ∀ n : CNode, (∀ c ∈ n.children, P c) → P n) : ∀ n, P n := by
  have key : ∀ k, ∀ n : CNode, sizeOf n ≤ k → P n := by
    intro k
    induction k with
    | zero =>
      intro n hn
      exfalso
      cases n
      simp only [CNode.mk.sizeOf_spec] at hn
      omega
    | succ k ih =>
      intro n hn
      apply step
      intro c hc
      apply ih
      have h1 := List.sizeOf_lt_of_mem hc
      cases n
      simp only [CNode.mk.sizeOf_spec] at hn
      simp only [CNode.children] at h1
      omega
  intro n
  exact key (sizeOf n) n le_rfl

theorem clist_ind (P : List CNode → Prop)
    (hnil : P [])
    (hcons : ∀ (c : CNode) (rest : List CNode),
      (∀ l2 : List CNode, sizeOf l2 < sizeOf (c :: rest) → P l2) → P rest → P (c :: rest)) :
    ∀ l, P l := by
  have key : ∀ k, ∀ l : List CNode, sizeOf l ≤ k → P l := by
    intro k
    induction k with
    | zero =>
      intro l hl
      cases l with
      | nil => exact hnil
      | cons c rest =>
        exfalso
        simp only [List.cons.sizeOf_spec] at hl
        omega
    | succ k ih =>
      intro l hl
      cases l with
      | nil => exact hnil
      | cons c rest =>
        apply hcons
        · intro l2 hl2
          apply ih
          omega
        · apply ih
          simp only [List.cons.sizeOf_spec] at hl
          have h1 : 0 < sizeOf c := by cases c; simp only [CNode.mk.sizeOf_spec]; omega
          omega
  intro l
  exact key (sizeOf l) l le_rfl

/-- Cloning preserves the content (erasure), and the counter only
grows. -/
theorem deepCloneList_facts : ∀ l : List CNode, ∀ f : Nat,
    eraseCL (deepCloneList f l).1 = eraseCL l ∧ f ≤ (deepCloneList f l).2 := by
  intro l
  induction l using clist_ind with
  | hnil => intro f; simp [deepCloneList, eraseCL]
  | hcons c rest ihstrong ih =>
    intro f
    have hch : sizeOf c.children < sizeOf (c :: rest) := by
      cases c; simp [CNode.children]; omega
    have h1 := (ihstrong c.children hch) (f + 1)
    have h2 := ih (deepCloneNode f c).2
    have hnode : eraseC (deepCloneNode f c).1 = eraseC c := by
      simp only [deepCloneNode, eraseC]
      rw [h1.1]
    have hcnt : f ≤ (deepCloneNode f c).2 := by
      simp only [deepCloneNode]
      omega
    constructor
    · simp only [deepCloneList, eraseCL]
      rw [hnode, h2.1]
    · simp only [deepCloneList]
      omega

theorem deepCloneNode_erase (f : Nat) (n : CNode) :
    eraseC (deepCloneNode f n).1 = eraseC n := by
  simp only [deepCloneNode, eraseC]
  rw [(deepCloneList_facts n.children (f + 1)).1]

/-- Every identifier in a clone lies in the fresh interval
`[f, counter')`. -/
theorem deepCloneList_ids : ∀ l : List CNode, ∀ f : Nat,
    ∀ i ∈ idsOfL (deepCloneList f l).1, f ≤ i ∧ i < (deepCloneList f l).2 := by
  intro l
  induction l using clist_ind with
  | hnil => intro f i hi; simp [deepCloneList, idsOfL] at hi
  | hcons c rest ihstrong ih =>
    intro f i hi
    have hch : sizeOf c.children < sizeOf (c :: rest) := by
      cases c; simp [CNode.children]; omega
    have hkidcnt : f + 1 ≤ (deepCloneList (f + 1) c.children).2 :=
      (deepCloneList_facts c.children (f + 1)).2
    have hrestcnt : (deepCloneList (f + 1) c.children).2 ≤
        (deepCloneList (deepCloneList (f + 1) c.children).2 rest).2 :=
      (deepCloneList_facts rest _).2
    simp only [deepCloneList, deepCloneNode, idsOfL, idsOf, List.mem_append,
      List.mem_cons] at hi ⊢
    rcases hi with (rfl | hi) | hi
    · omega
    · have := ihstrong c.children hch (f + 1) i hi
      omega
    · have := ih (deepCloneList (f + 1) c.children).2 i hi
      omega

theorem deepCloneNode_ids (f : Nat) (n : CNode) :
    ∀ i ∈ idsOf (deepCloneNode f n).1, f ≤ i ∧ i < (deepCloneNode f n).2 := by
  intro i hi
  have hkidcnt : f + 1 ≤ (deepCloneList (f + 1) n.children).2 :=
    (deepCloneList_facts n.children (f + 1)).2
  simp only [deepCloneNode, idsOf, List.mem_cons] at hi ⊢
  rcases hi with rfl | hi
  · omega
  · have := deepCloneList_ids n.children (f + 1) i hi
    omega

/-- Rebuilding parent references changes neither the content nor the
identifiers. -/
theorem rebuild_erase_ids : ∀ n : CNode,
    eraseC (rebuildParentReferences n) = eraseC n ∧
    idsOf (rebuildParentReferences n) = idsOf n ∧
    (rebuildParentReferences n).id = n.id ∧
    (rebuildParentReferences n).parent = n.parent := by
  intro n
  induction n using cnode_ind with
  | step n ih =>
    have key : ∀ pid, ∀ cs : List CNode, (∀ c ∈ cs, eraseC (rebuildParentReferences c) = eraseC c ∧
        idsOf (rebuildParentReferences c) = idsOf c ∧
        (rebuildParentReferences c).id = c.id ∧ (rebuildParentReferences c).parent = c.parent) →
        eraseCL (rebuildChildren pid cs) = eraseCL cs ∧
        idsOfL (rebuildChildren pid cs) = idsOfL cs := by
      intro pid cs hcs
      induction cs with
      | nil => simp [rebuildChildren, eraseCL, idsOfL]
      | cons c rest ihl =>
        have hc := hcs c (by simp)
        have hrest := ihl (fun c h => hcs c (by simp [h]))
        simp only [rebuildChildren, eraseCL, idsOfL]
        constructor
        · rw [hrest.1]
          have : eraseC { rebuildParentReferences c with parent := some pid } =
              eraseC (rebuildParentReferences c) := by
            simp only [eraseC]
          rw [this, hc.1]
        · rw [hrest.2]
          have : idsOf { rebuildParentReferences c with parent := some pid } =
              idsOf (rebuildParentReferences c) := by
            simp only [idsOf]
          rw [this, hc.2.1]
    have hk := key n.id n.children ih
    refine ⟨?_, ?_, ?_, ?_⟩
    · simp only [rebuildParentReferences, eraseC]
      rw [hk.1]
    · simp only [rebuildParentReferences, idsOf]
      rw [hk.2]
    · simp only [rebuildParentReferences]
    · simp only [rebuildParentReferences]

/-- After `rebuildParentReferences` every child's parent pointer names
its parent. -/
theorem rebuild_parentsOK : ∀ n : CNode,
    childParentsOK (rebuildParentReferences n) = true := by
  intro n
  induction n using cnode_ind with
  | step n ih =>
    have key : ∀ pid, ∀ cs : List CNode,
        (∀ c ∈ cs, childParentsOK (rebuildParentReferences c) = true) →
        childParentsOKL pid (rebuildChildren pid cs) = true := by
      intro pid cs hcs
      induction cs with
      | nil => simp [rebuildChildren, childParentsOKL]
      | cons c rest ihl =>
        simp only [rebuildChildren, childParentsOKL, Bool.and_eq_true, beq_iff_eq]
        refine ⟨⟨by simp, ?_⟩, ihl (fun c h => hcs c (by simp [h]))⟩
        have hc := hcs c (by simp)
        have hsame : childParentsOK { rebuildParentReferences c with parent := some pid } =
            childParentsOK (rebuildParentReferences c) := by
          simp only [childParentsOK]
        rw [hsame, hc]
    simp only [rebuildParentReferences, childParentsOK]
    exact key n.id n.children ih

theorem eraseCL_eq_map : ∀ l : List CNode, eraseCL l = l.map eraseC := by
  intro l
  induction l with
  | nil => simp [eraseCL]
  | cons c rest ih => simp [eraseCL, ih]

theorem idsOfL_eq_flatten : ∀ l : List CNode, idsOfL l = (l.map idsOf).flatten := by
  intro l
  induction l with
  | nil => simp [idsOfL]
  | cons c rest ih => simp [idsOfL, ih]

theorem deepCloneList_map_erase (f : Nat) (l : List CNode) :
    (deepCloneList f l).1.map eraseC = l.map eraseC := by
  have h := (deepCloneList_facts l f).1
  rwa [eraseCL_eq_map, eraseCL_eq_map] at h

theorem rebuild_erase (n : CNode) :
    eraseC (rebuildParentReferences n) = eraseC n := (rebuild_erase_ids n).1

theorem rebuild_ids (n : CNode) :
    idsOf (rebuildParentReferences n) = idsOf n := (rebuild_erase_ids n).2.1

/-- The snapshot built by `cloneData` is content-equal to the data it
clones, uses only fresh identifiers (at or above the counter), and has
correct parent pointers throughout the cloned root tree. -/
theorem cloneData_facts (f : Nat) (d : CData) :
    eraseCData (cloneData f d).1 = eraseCData d ∧
    (∀ i ∈ idsOfData (cloneData f d).1, f ≤ i) ∧
    (∀ r, (cloneData f d).1.rootNode = some r → childParentsOK r = true) := by
  rcases d with ⟨root, all, ml⟩
  cases root with
  | none =>
    refine ⟨?_, ?_, ?_⟩
    · simp [cloneData, eraseCData, deepCloneList_map_erase]
    · intro i hi
      simp only [cloneData, idsOfData, List.mem_append] at hi
      rcases hi with hi | hi
      · simp at hi
      · rw [← idsOfL_eq_flatten] at hi
        exact (deepCloneList_ids all f i hi).1
    · intro r hr
      simp [cloneData] at hr
  | some r0 =>
    have hcnt : f ≤ (deepCloneNode f r0).2 := by
      have := (deepCloneList_facts r0.children (f + 1)).2
      simp only [deepCloneNode]
      omega
    refine ⟨?_, ?_, ?_⟩
    · simp [cloneData, eraseCData, rebuild_erase, deepCloneNode_erase,
        deepCloneList_map_erase]
    · intro i hi
      simp only [cloneData, idsOfData, List.mem_append, Option.map_some'] at hi
      rcases hi with hi | hi
      · rw [rebuild_ids] at hi
        exact (deepCloneNode_ids f r0 i hi).1
      · rw [← idsOfL_eq_flatten] at hi
        have := deepCloneList_ids all (deepCloneNode f r0).2 i hi
        omega
    · intro r hr
      simp only [cloneData, Option.map_some', Option.some.injEq] at hr
      rw [← hr]
      exact rebuild_parentsOK _

/-- One `saveSnapshot` in drop normal form (valid while the stack is
within capacity, which every reachable manager state is). -/
theorem saveSnapshot_undoStack (m : UndoManager) (f : Nat) (d : CData)
    (hm : m.undoStack.length ≤ 5) :
    (saveSnapshot m f d).undoStack =
      (m.undoStack ++ [(cloneData f d).1]).drop (m.undoStack.length + 1 - 5) := by
  simp only [saveSnapshot, MAX_STACK_SIZE]
  split
  · rename_i h
    simp only [List.length_append, List.length_cons, List.length_nil] at h
    have : m.undoStack.length + 1 - 5 = 1 := by omega
    rw [this]
  · rename_i h
    simp only [List.length_append, List.length_cons, List.length_nil] at h
    have : m.undoStack.length + 1 - 5 = 0 := by omega
    rw [this, List.drop_zero]

/-- Folding `saveSnapshot` over a list of states keeps only a
five-element window of the most recent snapshots. -/
theorem saveAll_undoStack : ∀ (datas : List (Nat × CData)) (m : UndoManager),
    m.undoStack.length ≤ 5 →
    (datas.foldl (fun acc p => saveSnapshot acc p.1 p.2) m).undoStack =
      (m.undoStack ++ datas.map (fun p => (cloneData p.1 p.2).1)).drop
        (m.undoStack.length + datas.length - 5) := by
  intro datas
  induction datas with
  | nil =>
    intro m hm
    simp only [List.foldl_nil, List.map_nil, List.append_nil, List.length_nil]
    have : m.undoStack.length + 0 - 5 = 0 := by omega
    rw [this, List.drop_zero]
  | cons p rest ih =>
    intro m hm
    simp only [List.foldl_cons, List.map_cons, List.length_cons]
    have hstack := saveSnapshot_undoStack m p.1 p.2 hm
    have hdl : (List.drop (m.undoStack.length + 1 - 5)
        (m.undoStack ++ [(cloneData p.1 p.2).1])).length =
        m.undoStack.length + 1 - (m.undoStack.length + 1 - 5) := by
      rw [List.length_drop]
      simp only [List.length_append, List.length_cons, List.length_nil]
    have hle : (saveSnapshot m p.1 p.2).undoStack.length ≤ 5 := by
      rw [hstack, hdl]
      omega
    rw [ih (saveSnapshot m p.1 p.2) hle, hstack]
    rw [← List.drop_append_of_le_length (by
      simp only [List.length_append, List.length_cons, List.length_nil]; omega)]
    rw [List.drop_drop]
    have hsplit : m.undoStack ++ (cloneData p.1 p.2).1 ::
        List.map (fun q => (cloneData q.1 q.2).1) rest =
        (m.undoStack ++ [(cloneData p.1 p.2).1]) ++
          List.map (fun q => (cloneData q.1 q.2).1) rest := by
      simp
    rw [hsplit]
    congr 1
    rw [hdl]
    omega

/-- Claim C5: `saveSnapshot` pushes a deep-cloned snapshot (content-equal
to the live data, no shared object identifiers, parent pointers rebuilt
throughout the cloned root tree) onto the undo stack, evicts the oldest
snapshot when the stack would exceed the capacity of 5, and clears the
redo stack; consequently after `k ≥ 5` snapshots only the clones of the
last five saved states remain on the undo stack, so from the sixth
mutation on the oldest states are no longer reachable via undo. -/
theorem claimC5 (m : UndoManager) (f : Nat) (d : CData)
    (datas : List (Nat × CData)) (hf : ∀ i ∈ idsOfData d, i < f) :
    (saveSnapshot m f d).redoStack = [] ∧
    eraseCData (cloneData f d).1 = eraseCData d ∧
    (∀ i ∈ idsOfData (cloneData f d).1, i ∉ idsOfData d) ∧
    (∀ r, (cloneData f d).1.rootNode = some r → childParentsOK r = true) ∧
    (m.undoStack.length < 5 →
      (saveSnapshot m f d).undoStack = m.undoStack ++ [(cloneData f d).1]) ∧
    (m.undoStack.length = 5 →
      (saveSnapshot m f d).undoStack = m.undoStack.tail ++ [(cloneData f d).1]) ∧
    (5 ≤ datas.length →
      (datas.foldl (fun acc p => saveSnapshot acc p.1 p.2) ⟨[], []⟩).undoStack =
        (datas.drop (datas.length - 5)).map (fun p => (cloneData p.1 p.2).1)) := by
  obtain ⟨herase, hids, hpar⟩ := cloneData_facts f d
  refine ⟨rfl, herase, ?_, hpar, ?_, ?_, ?_⟩
  · intro i hi hmem
    have h1 := hids i hi
    have h2 := hf i hmem
    omega
  · intro hlt
    rw [saveSnapshot_undoStack m f d (by omega)]
    have : m.undoStack.length + 1 - 5 = 0 := by omega
    rw [this, List.drop_zero]
  · intro heq
    rw [saveSnapshot_undoStack m f d (by omega), heq]
    rw [List.drop_append_of_le_length (by omega)]
    rw [← List.drop_one]
  · intro hlen
    rw [saveAll_undoStack datas ⟨[], []⟩ (by simp)]
    simp only [List.nil_append, List.length_nil, Nat.zero_add]
    rw [← List.map_drop]

unseal idsOf idsOfL in
theorem claimC5_witness :
    (∀ i ∈ idsOfData ⟨some ⟨0, ['A'], 0, true, none, []⟩,
        [⟨0, ['A'], 0, true, none, []⟩], 0⟩, i < 7) ∧
    (saveSnapshot ⟨[], []⟩ 7 ⟨some ⟨0, ['A'], 0, true, none, []⟩,
        [⟨0, ['A'], 0, true, none, []⟩], 0⟩).redoStack = [] :=
  ⟨by decide,
    (claimC5 ⟨[], []⟩ 7 ⟨some ⟨0, ['A'], 0, true, none, []⟩,
      [⟨0, ['A'], 0, true, none, []⟩], 0⟩
      [(10, ⟨none, [], 0⟩), (20, ⟨none, [], 1⟩), (30, ⟨none, [], 2⟩),
       (40, ⟨none, [], 3⟩), (50, ⟨none, [], 4⟩), (60, ⟨none, [], 5⟩)]
      (by decide)).1⟩

/-- Claim C6: with a non-empty undo stack, `undo` returns the most recent
snapshot and parks a clone of the current state on the redo stack; a
subsequent `redo` (no intervening mutation) returns exactly that clone,
which is structurally and content-equivalent to the state before the
undo but shares no object identifier with it. -/
theorem claimC6 (m : UndoManager) (cur : CData) (f : Nat)
    (hne : m.undoStack ≠ []) (hf : ∀ i ∈ idsOfData cur, i < f) :
    ∃ prev : CData, (m.undo f cur).1 = some prev ∧
      ∀ g : Nat, (((m.undo f cur).2).redo g prev).1 = some (cloneData f cur).1 ∧
        eraseCData (cloneData f cur).1 = eraseCData cur ∧
        (∀ i ∈ idsOfData (cloneData f cur).1, i ∉ idsOfData cur) := by
  obtain ⟨l', x, hconcat⟩ := (List.eq_nil_or_concat m.undoStack).resolve_left hne
  obtain ⟨herase, hids, -⟩ := cloneData_facts f cur
  refine ⟨x, ?_, ?_⟩
  · simp only [UndoManager.undo, hconcat]
    rw [if_neg (by simp)]
    simp [List.getLast?_concat]
  · intro g
    refine ⟨?_, herase, ?_⟩
    · simp only [UndoManager.undo, UndoManager.redo, hconcat]
      rw [if_neg (by simp)]
      simp only
      rw [if_neg (by simp)]
      simp [List.getLast?_concat]
    · intro i hi hmem
      have h1 := hids i hi
      have h2 := hf i hmem
      omega

unseal idsOf idsOfL in
theorem claimC6_witness :
    ((⟨[⟨none, [], 0⟩], []⟩ : UndoManager).undoStack ≠ [] ∧
      ∀ i ∈ idsOfData ⟨some ⟨0, ['A'], 0, true, none, []⟩, [], 1⟩, i < 7) ∧
    ∃ prev : CData,
      ((⟨[⟨none, [], 0⟩], []⟩ : UndoManager).undo 7
        ⟨some ⟨0, ['A'], 0, true, none, []⟩, [], 1⟩).1 = some prev :=
  ⟨⟨by simp, by decide⟩, by
    obtain ⟨prev, h1, -⟩ := claimC6 ⟨[⟨none, [], 0⟩], []⟩
      ⟨some ⟨0, ['A'], 0, true, none, []⟩, [], 1⟩ 7
      (by simp) (by decide)
    exact ⟨prev, h1⟩⟩

/-! ## Claims C2, C3, C4, C10 — the two-pass layout -/

theorem mmnode_ind (P : MMNode → Prop)
    (step : ∀ n : MMNode, (∀ c ∈ n.children, P c) → P n) : ∀ n, P n := by
  have key : ∀ k, ∀ n : MMNode, sizeOf n ≤ k → P n := by
    intro k
    induction k with
    | zero =>
      intro n hn
      exfalso
      cases n
      simp only [MMNode.mk.sizeOf_spec] at hn
      omega
    | succ k ih =>
      intro n hn
      apply step
      intro c hc
      apply ih
      have h1 := List.sizeOf_lt_of_mem hc
      cases n
      simp only [MMNode.mk.sizeOf_spec] at hn
      simp only [MMNode.children] at h1
      omega
  intro n
  exact key (sizeOf n) n le_rfl

theorem calcDimsList_eq_map (cb : Nat → List Char → Rat × Rat) (d : Nat) :
    ∀ l : List MMNode, calcDimsList cb d l =
      l.map (calculateAllSubtreeDimensions cb d) := by
  intro l
  induction l with
  | nil => simp [calcDimsList]
  | cons c rest ih => simp [calcDimsList, ih]

theorem subnodesDL_eq_flatten (d : Nat) : ∀ l : List MMNode,
    subnodesDL d l = (l.map (subnodesD d)).flatten := by
  intro l
  induction l with
  | nil => simp [subnodesDL]
  | cons c rest ih => simp [subnodesDL, ih]

theorem accHeights_cons (g h : Rat) : ∀ t : List Rat,
    accHeights g (h :: t) = h + t.sum + g * t.length := by
  intro t
  induction t generalizing h with
  | nil => simp [accHeights]
  | cons h2 t2 ih =>
    rw [show accHeights g (h :: h2 :: t2) = h + g + accHeights g (h2 :: t2) from rfl]
    rw [ih h2]
    simp only [List.sum_cons, List.length_cons]
    push_cast
    ring

theorem listMax_mem (x : Rat) : ∀ xs : List Rat, listMax x xs ∈ x :: xs := by
  intro xs
  induction xs generalizing x with
  | nil => simp [listMax]
  | cons y ys ih =>
    have h := ih (max x y)
    simp only [listMax, List.foldl_cons] at h ⊢
    rcases List.mem_cons.1 h with h | h
    · rcases le_total x y with hle | hle
      · rw [h, max_eq_right hle]; simp
      · rw [h, max_eq_left hle]; simp
    · simp [h]

theorem listMax_ge (x : Rat) : ∀ xs : List Rat, ∀ y ∈ x :: xs, y ≤ listMax x xs := by
  intro xs
  induction xs generalizing x with
  | nil =>
    intro y hy
    simp at hy
    simp [listMax, hy]
  | cons z zs ih =>
    intro y hy
    simp only [listMax, List.foldl_cons]
    rcases List.mem_cons.1 hy with rfl | hy
    · have := ih (max y z) (max y z) (by simp)
      simp only [listMax] at this
      exact le_trans (le_max_left y z) this
    · rcases List.mem_cons.1 hy with rfl | hy
      · have := ih (max x y) (max x y) (by simp)
        simp only [listMax] at this
        exact le_trans (le_max_right x y) this
      · exact ih (max x z) y (by simp [hy])

/-- Claim C2: after the bottom-up dimension pass, every node of the
result satisfies the leaf/branch subtree-dimension equations at its
depth. -/
theorem claimC2 (cb : Nat → List Char → Rat × Rat) (t : MMNode) :
    ∀ p ∈ subnodesD 0 (calculateAllSubtreeDimensions cb 0 t), dimsOK cb p.1 p.2 := by
  suffices h : ∀ t : MMNode, ∀ d : Nat,
      ∀ p ∈ subnodesD d (calculateAllSubtreeDimensions cb d t), dimsOK cb p.1 p.2 by
    exact h t 0
  intro t
  induction t using mmnode_ind with
  | step t ih =>
    intro d p hp
    rw [show calculateAllSubtreeDimensions cb d t =
        (let cs := calcDimsList cb (d + 1) t.children
         let dims := cb d t.text
         match cs with
         | [] =>
           { t with
             children := []
             nodeWidth := dims.1
             nodeHeight := dims.2
             subtreeWidth := dims.1
             subtreeHeight := dims.2 }
         | c0 :: crest =>
           { t with
             children := c0 :: crest
             nodeWidth := dims.1
             nodeHeight := dims.2
             subtreeWidth := max dims.1 (listMax c0.subtreeWidth (crest.map MMNode.subtreeWidth))
             subtreeHeight := max dims.2 (accHeights 10 ((c0 :: crest).map MMNode.subtreeHeight)) })
      from by rw [calculateAllSubtreeDimensions]] at hp
    rcases hcs : calcDimsList cb (d + 1) t.children with _ | ⟨c0, crest⟩
    · rw [hcs] at hp
      simp only [subnodesD, subnodesDL, List.mem_cons] at hp
      rcases hp with rfl | hp
      · simp [dimsOK]
      · simp at hp
    · rw [hcs] at hp
      simp only [subnodesD, List.mem_cons] at hp
      rcases hp with rfl | hp
      · constructor
        · rfl
        constructor
        · rfl
        constructor
        · intro habs
          exact absurd habs (by simp)
        intro hne
        constructor
        · constructor
          · simp only
            rcases le_total (cb d t.text).1
                (listMax c0.subtreeWidth (crest.map MMNode.subtreeWidth)) with hle | hle
            · rw [max_eq_right hle]
              refine List.mem_cons_of_mem _ ?_
              rw [List.map_cons]
              exact listMax_mem _ _
            · rw [max_eq_left hle]
              simp
          · intro w hw
            simp only [List.mem_cons] at hw
            rcases hw with rfl | hw
            · exact le_max_left _ _
            · refine le_trans ?_ (le_max_right _ _)
              apply listMax_ge
              simp only [List.map_cons, List.mem_cons] at hw ⊢
              rcases hw with rfl | hw
              · left; rfl
              · right; simpa using hw
        · simp only [List.map_cons, List.length_cons]
          rw [accHeights_cons]
          simp only [List.sum_cons, Nat.add_sub_cancel, List.length_map]
      · rw [subnodesDL_eq_flatten] at hp
        simp only [List.mem_flatten, List.mem_map] at hp
        obtain ⟨sub, ⟨c, hc, rfl⟩, hpsub⟩ := hp
        rw [calcDimsList_eq_map] at hcs
        have : c ∈ t.children.map (calculateAllSubtreeDimensions cb (d + 1)) := by
          rw [hcs]; exact hc
        obtain ⟨c', hc', rfl⟩ := List.mem_map.1 this
        exact ih c' hc' (d + 1) p hpsub

theorem claimC2_witness :
    ((0, calculateAllSubtreeDimensions (fun _ _ => (5, 7)) 0
        ⟨['A'], 0, true, false, false, 0, 0, 0, 0,
          [⟨['B'], 1, true, false, false, 0, 0, 0, 0, []⟩,
           ⟨['C'], 1, true, false, false, 0, 0, 0, 0, []⟩]⟩) ∈
      subnodesD 0 (calculateAllSubtreeDimensions (fun _ _ => (5, 7)) 0
        ⟨['A'], 0, true, false, false, 0, 0, 0, 0,
          [⟨['B'], 1, true, false, false, 0, 0, 0, 0, []⟩,
           ⟨['C'], 1, true, false, false, 0, 0, 0, 0, []⟩]⟩)) ∧
    dimsOK (fun _ _ => (5, 7)) 0
      (calculateAllSubtreeDimensions (fun _ _ => (5, 7)) 0
        ⟨['A'], 0, true, false, false, 0, 0, 0, 0,
          [⟨['B'], 1, true, false, false, 0, 0, 0, 0, []⟩,
           ⟨['C'], 1, true, false, false, 0, 0, 0, 0, []⟩]⟩) :=
  ⟨by rw [subnodesD]; exact List.mem_cons_self _ _,
    claimC2 (fun _ _ => (5, 7))
      ⟨['A'], 0, true, false, false, 0, 0, 0, 0,
        [⟨['B'], 1, true, false, false, 0, 0, 0, 0, []⟩,
         ⟨['C'], 1, true, false, false, 0, 0, 0, 0, []⟩]⟩ _
      (by rw [subnodesD]; exact List.mem_cons_self _ _)⟩

theorem eraseMML_eq_map : ∀ l : List MMNode, eraseMML l = l.map eraseMM := by
  intro l
  induction l with
  | nil => simp [eraseMML]
  | cons c rest ih => simp [eraseMML, ih]

theorem eraseHL_eq_map : ∀ l : List HNode, eraseHL l = l.map eraseH := by
  intro l
  induction l with
  | nil => simp [eraseHL]
  | cons c rest ih => simp [eraseHL, ih]

theorem calcDims_erase (cb : Nat → List Char → Rat × Rat) : ∀ t : MMNode, ∀ d : Nat,
    eraseMM (calculateAllSubtreeDimensions cb d t) = eraseMM t := by
  intro t
  induction t using mmnode_ind with
  | step t ih =>
    intro d
    have hkids : eraseMML (calcDimsList cb (d + 1) t.children) = eraseMML t.children := by
      rw [calcDimsList_eq_map, eraseMML_eq_map, eraseMML_eq_map, List.map_map]
      apply List.map_congr_left
      intro c hc
      exact ih c hc (d + 1)
    rw [calculateAllSubtreeDimensions]
    rcases hcs : calcDimsList cb (d + 1) t.children with _ | ⟨c0, crest⟩ <;>
      rw [hcs] at hkids <;>
      simp only [eraseMM] <;>
      rw [hkids]

/-- The coordinates, depth and data stored by `setNodePositionsTopDown`
at the node itself. -/
theorem setPos_proj (d : Nat) (x y : Rat) (n : MMNode) :
    (setNodePositionsTopDown d x y n).data = n ∧
    (setNodePositionsTopDown d x y n).depth = d ∧
    (setNodePositionsTopDown d x y n).x = x ∧
    (setNodePositionsTopDown d x y n).y = y := by
  rw [setNodePositionsTopDown]
  rcases n.children with _ | ⟨c0, crest⟩ <;> exact ⟨rfl, rfl, rfl, rfl⟩

theorem setPos_erase (cb : Nat → List Char → Rat × Rat) : ∀ n : MMNode, ∀ (d : Nat) (x y : Rat),
    eraseH (setNodePositionsTopDown d x y n) = eraseMM n := by
  intro n
  induction n using mmnode_ind with
  | step n ih =>
    intro d x y
    have hplace : ∀ cs : List MMNode, (∀ c ∈ cs, ∀ (d2 : Nat) (x2 y2 : Rat),
        eraseH (setNodePositionsTopDown d2 x2 y2 c) = eraseMM c) →
        ∀ (cd : Nat) (cy ychild : Rat),
        eraseHL (placeChildren cd cy ychild cs) = eraseMML cs := by
      intro cs
      induction cs with
      | nil => intro _ _ _ _; simp [placeChildren, eraseHL, eraseMML]
      | cons c rest ihl =>
        intro hcs cd cy ychild
        rw [placeChildren]
        simp only [eraseHL, eraseMML]
        rw [hcs c (by simp) cd _ ychild, ihl (fun c2 h2 => hcs c2 (by simp [h2])) cd _ ychild]
    rw [setNodePositionsTopDown]
    rcases hcs : n.children with _ | ⟨c0, crest⟩
    · simp only [eraseH, eraseMM, eraseHL, hcs, eraseMML]
    · simp only [eraseH, eraseMM]
      rw [hplace (c0 :: crest) (fun c hc => ih c (by rw [hcs]; exact hc)), hcs]

/-- Claim C10: the layout computation writes only the layout-owned fields
(`nodeWidth`, `nodeHeight`, `subtreeWidth`, `subtreeHeight` on the data,
`x`/`y`/depth on the hierarchy): erasing those fields from the positioned
hierarchy — and from the pass-1 output — gives back exactly the input
tree's text, level, expanded/selected/hovered flags and children
structure. -/
theorem claimC10 (cb : Nat → List Char → Rat × Rat) (t : MMNode) :
    eraseH (createRecursiveTreeLayout cb t) = eraseMM t ∧
    eraseMM (calculateAllSubtreeDimensions cb 0 t) = eraseMM t := by
  constructor
  · rw [createRecursiveTreeLayout, setPos_erase cb _ 0 100 100, calcDims_erase]
  · exact calcDims_erase cb t 0

theorem accHeights_eq_sum : ∀ hs : List Rat,
    accHeights 10 hs = hs.sum + 10 * ((hs.length - 1 : Nat) : Rat) := by
  intro hs
  cases hs with
  | nil => simp [accHeights]
  | cons h t =>
    rw [accHeights_cons]
    simp only [List.sum_cons, List.length_cons, Nat.add_sub_cancel]

/-- Everything `placeChildren` guarantees about the list it builds: the
wrapped data is the input list, every child shares the caller's
horizontal position and depth, and the vertical centres follow the
accumulator chain. -/
theorem placeChildren_facts : ∀ (cs : List MMNode) (cd : Nat) (cy ychild : Rat),
    (placeChildren cd cy ychild cs).map (fun c => c.data) = cs ∧
    (∀ hc ∈ placeChildren cd cy ychild cs, hc.y = ychild ∧ hc.depth = cd) ∧
    xChain cy (placeChildren cd cy ychild cs) := by
  intro cs
  induction cs with
  | nil =>
    intro cd cy ychild
    refine ⟨by simp [placeChildren], by simp [placeChildren], by simp [placeChildren, xChain]⟩
  | cons c rest ih =>
    intro cd cy ychild
    obtain ⟨hd, hdep, hx, hy⟩ := setPos_proj cd (cy + c.subtreeHeight / 2) ychild c
    obtain ⟨ih1, ih2, ih3⟩ := ih cd (cy + c.subtreeHeight + 10) ychild
    rw [placeChildren]
    refine ⟨?_, ?_, ?_⟩
    · simp only [List.map_cons, hd, ih1]
    · intro hc hmem
      rcases List.mem_cons.1 hmem with rfl | hmem
      · exact ⟨hy, hdep⟩
      · exact ih2 hc hmem
    · refine ⟨?_, ?_⟩
      · rw [hx, hd]
      · rw [hd]
        exact ih3

theorem mem_hsubnodesL_placeChildren :
    ∀ (cs : List MMNode) (cd : Nat) (cy ychild : Rat) (p : HNode),
    p ∈ hsubnodesL (placeChildren cd cy ychild cs) →
    ∃ c ∈ cs, ∃ x2 : Rat, p ∈ hsubnodes (setNodePositionsTopDown cd x2 ychild c) := by
  intro cs
  induction cs with
  | nil => intro cd cy ychild p hp; simp [placeChildren, hsubnodesL] at hp
  | cons c rest ih =>
    intro cd cy ychild p hp
    rw [placeChildren, hsubnodesL] at hp
    rcases List.mem_append.1 hp with hp | hp
    · exact ⟨c, by simp, cy + c.subtreeHeight / 2, hp⟩
    · obtain ⟨c2, hc2, x2, hpx⟩ := ih cd (cy + c.subtreeHeight + 10) ychild p hp
      exact ⟨c2, by simp [hc2], x2, hpx⟩

theorem setPos_children_nil (d : Nat) (x y : Rat) (n : MMNode)
    (hcs : n.children = []) :
    setNodePositionsTopDown d x y n = ⟨n, d, x, y, []⟩ := by
  rw [setNodePositionsTopDown]
  split
  · rfl
  · rename_i c0 crest heq
    rw [hcs] at heq
    cases heq

theorem setPos_children_cons (d : Nat) (x y : Rat) (n : MMNode)
    (c0 : MMNode) (crest : List MMNode) (hcs : n.children = c0 :: crest) :
    setNodePositionsTopDown d x y n = ⟨n, d, x, y,
      placeChildren (d + 1)
        (x - accHeights 10 ((c0 :: crest).map MMNode.subtreeHeight) / 2)
        (y + n.nodeWidth + horizontalSpacing d) (c0 :: crest)⟩ := by
  rw [setNodePositionsTopDown]
  split
  · rename_i heq
    rw [hcs] at heq
    cases heq
  · rename_i c0' crest' heq
    rw [hcs] at heq
    cases heq
    rfl

/-- The per-parent placement facts hold at every node of the positioned
hierarchy. -/
theorem layout_pos_spec : ∀ (n : MMNode) (d : Nat) (x y : Rat),
    ∀ p ∈ hsubnodes (setNodePositionsTopDown d x y n),
      (∀ c ∈ p.children,
        c.y = p.y + p.data.nodeWidth + horizontalSpacing p.depth ∧ c.depth = p.depth + 1) ∧
      xChain (p.x - accHeights 10 (p.children.map (fun c => c.data.subtreeHeight)) / 2)
        p.children ∧
      p.children.map (fun c => c.data) = p.data.children := by
  intro n
  induction n using mmnode_ind with
  | step n ih =>
    intro d x y p hp
    rcases hcs : n.children with _ | ⟨c0, crest⟩
    · rw [setPos_children_nil d x y n hcs] at hp
      simp only [hsubnodes, hsubnodesL, List.mem_cons] at hp
      rcases hp with rfl | hp
      · refine ⟨by simp, by simp [xChain], by simp [hcs]⟩
      · simp at hp
    · rw [setPos_children_cons d x y n c0 crest hcs] at hp
      rw [hsubnodes] at hp
      rcases List.mem_cons.1 hp with rfl | hp
      · obtain ⟨h1, h2, h3⟩ := placeChildren_facts (c0 :: crest) (d + 1)
          (x - accHeights 10 ((c0 :: crest).map MMNode.subtreeHeight) / 2)
          (y + n.nodeWidth + horizontalSpacing d)
        have hmapheights :
            ((placeChildren (d + 1)
              (x - accHeights 10 ((c0 :: crest).map MMNode.subtreeHeight) / 2)
              (y + n.nodeWidth + horizontalSpacing d) (c0 :: crest)).map
                (fun c => c.data.subtreeHeight)) =
            (c0 :: crest).map MMNode.subtreeHeight := by
          have := congrArg (List.map MMNode.subtreeHeight) h1
          rwa [List.map_map] at this
        refine ⟨?_, ?_, ?_⟩
        · intro c hcmem
          have := h2 c hcmem
          exact ⟨this.1, this.2⟩
        · simp only [hmapheights]
          exact h3
        · simp only [h1, hcs]
      · obtain ⟨c, hcmem, x2, hpmem⟩ := mem_hsubnodesL_placeChildren (c0 :: crest) (d + 1)
          (x - accHeights 10 ((c0 :: crest).map MMNode.subtreeHeight) / 2)
          (y + n.nodeWidth + horizontalSpacing d) p hp
        exact ih c (by rw [hcs]; exact hcmem) (d + 1) x2 (y + n.nodeWidth + horizontalSpacing d) p hpmem

/-- Claim C3: after the position pass, for every node with children all
children share the horizontal position
`parent.y + parent.nodeWidth + horizontalSpacing(parent.depth)` (with the
root edge spacing 80 larger than the deeper-edge spacing 30); the first
child's vertical centre is
`parent.x − totalChildrenHeight/2 + firstChild.subtreeHeight/2`, and each
subsequent child's centre advances by the previous child's subtree height
plus the vertical gap of 10 (`xChain`). -/
theorem claimC3 (cb : Nat → List Char → Rat × Rat) (t : MMNode) :
    ∀ p ∈ hsubnodes (createRecursiveTreeLayout cb t),
      (∀ c ∈ p.children,
        c.y = p.y + p.data.nodeWidth + horizontalSpacing p.depth ∧ c.depth = p.depth + 1) ∧
      xChain (p.x - ((p.children.map (fun c => c.data.subtreeHeight)).sum
        + 10 * ((p.children.length - 1 : Nat) : Rat)) / 2) p.children ∧
      horizontalSpacing 0 = 80 ∧ (∀ k : Nat, horizontalSpacing (k + 1) = 30) ∧
      horizontalSpacing 1 < horizontalSpacing 0 := by
  intro p hp
  obtain ⟨h1, h2, h3⟩ := layout_pos_spec (calculateAllSubtreeDimensions cb 0 t) 0 100 100 p hp
  rw [accHeights_eq_sum] at h2
  simp only [List.length_map] at h2
  refine ⟨h1, h2, rfl, fun k => rfl, by norm_num [horizontalSpacing]⟩

theorem claimC3_witness :
    (createRecursiveTreeLayout (fun _ _ => (5, 7))
        ⟨['A'], 0, true, false, false, 0, 0, 0, 0,
          [⟨['B'], 1, true, false, false, 0, 0, 0, 0, []⟩,
           ⟨['C'], 1, true, false, false, 0, 0, 0, 0, []⟩]⟩ ∈
      hsubnodes (createRecursiveTreeLayout (fun _ _ => (5, 7))
        ⟨['A'], 0, true, false, false, 0, 0, 0, 0,
          [⟨['B'], 1, true, false, false, 0, 0, 0, 0, []⟩,
           ⟨['C'], 1, true, false, false, 0, 0, 0, 0, []⟩]⟩)) ∧
    ∀ c ∈ (createRecursiveTreeLayout (fun _ _ => (5, 7))
        ⟨['A'], 0, true, false, false, 0, 0, 0, 0,
          [⟨['B'], 1, true, false, false, 0, 0, 0, 0, []⟩,
           ⟨['C'], 1, true, false, false, 0, 0, 0, 0, []⟩]⟩).children,
      c.y = (createRecursiveTreeLayout (fun _ _ => (5, 7))
        ⟨['A'], 0, true, false, false, 0, 0, 0, 0,
          [⟨['B'], 1, true, false, false, 0, 0, 0, 0, []⟩,
           ⟨['C'], 1, true, false, false, 0, 0, 0, 0, []⟩]⟩).y +
        (createRecursiveTreeLayout (fun _ _ => (5, 7))
        ⟨['A'], 0, true, false, false, 0, 0, 0, 0,
          [⟨['B'], 1, true, false, false, 0, 0, 0, 0, []⟩,
           ⟨['C'], 1, true, false, false, 0, 0, 0, 0, []⟩]⟩).data.nodeWidth +
        horizontalSpacing (createRecursiveTreeLayout (fun _ _ => (5, 7))
        ⟨['A'], 0, true, false, false, 0, 0, 0, 0,
          [⟨['B'], 1, true, false, false, 0, 0, 0, 0, []⟩,
           ⟨['C'], 1, true, false, false, 0, 0, 0, 0, []⟩]⟩).depth ∧
      c.depth = (createRecursiveTreeLayout (fun _ _ => (5, 7))
        ⟨['A'], 0, true, false, false, 0, 0, 0, 0,
          [⟨['B'], 1, true, false, false, 0, 0, 0, 0, []⟩,
           ⟨['C'], 1, true, false, false, 0, 0, 0, 0, []⟩]⟩).depth + 1 := by
  constructor
  · rw [hsubnodes]
    exact List.mem_cons_self _ _
  · exact fun c hc => (claimC3 (fun _ _ => (5, 7))
      ⟨['A'], 0, true, false, false, 0, 0, 0, 0,
        [⟨['B'], 1, true, false, false, 0, 0, 0, 0, []⟩,
         ⟨['C'], 1, true, false, false, 0, 0, 0, 0, []⟩]⟩ _
      (by rw [hsubnodes]; exact List.mem_cons_self _ _)).1 c hc

/-- With non-negative measured heights, every subtree height computed by
pass 1 is non-negative. -/
theorem calcDims_heights_nonneg (cb : Nat → List Char → Rat × Rat)
    (hcb : ∀ d s, 0 ≤ (cb d s).2) : ∀ (t : MMNode) (d : Nat),
    ∀ p ∈ subnodesD d (calculateAllSubtreeDimensions cb d t), 0 ≤ p.2.subtreeHeight := by
  intro t
  induction t using mmnode_ind with
  | step t ih =>
    intro d p hp
    rw [calculateAllSubtreeDimensions] at hp
    rcases hcs : calcDimsList cb (d + 1) t.children with _ | ⟨c0, crest⟩ <;> rw [hcs] at hp
    · simp only [subnodesD, subnodesDL, List.mem_cons] at hp
      rcases hp with rfl | hp
      · exact hcb d t.text
      · simp at hp
    · simp only [subnodesD, List.mem_cons] at hp
      rcases hp with rfl | hp
      · exact le_trans (hcb d t.text) (le_max_left _ _)
      · rw [subnodesDL_eq_flatten] at hp
        simp only [List.mem_flatten, List.mem_map] at hp
        obtain ⟨sub, ⟨c, hc, rfl⟩, hpsub⟩ := hp
        rw [calcDimsList_eq_map] at hcs
        have : c ∈ t.children.map (calculateAllSubtreeDimensions cb (d + 1)) := by
          rw [hcs]; exact hc
        obtain ⟨c', hc', rfl⟩ := List.mem_map.1 this
        exact ih c' hc' (d + 1) p hpsub

theorem subnodesD_child_mem : ∀ (n : MMNode) (d : Nat) (q : Nat × MMNode),
    q ∈ subnodesD d n → ∀ c ∈ q.2.children, (q.1 + 1, c) ∈ subnodesD d n := by
  intro n
  induction n using mmnode_ind with
  | step n ih =>
    intro d q hq c hc
    rw [subnodesD] at hq ⊢
    rcases List.mem_cons.1 hq with rfl | hq
    · refine List.mem_cons_of_mem _ ?_
      rw [subnodesDL_eq_flatten]
      simp only [List.mem_flatten, List.mem_map]
      refine ⟨subnodesD (d + 1) c, ⟨c, hc, rfl⟩, ?_⟩
      rw [subnodesD]
      exact List.mem_cons_self _ _
    · refine List.mem_cons_of_mem _ ?_
      rw [subnodesDL_eq_flatten] at hq ⊢
      simp only [List.mem_flatten, List.mem_map] at hq ⊢
      obtain ⟨sub, ⟨c2, hc2, rfl⟩, hqsub⟩ := hq
      exact ⟨subnodesD (d + 1) c2, ⟨c2, hc2, rfl⟩, ih c2 hc2 (d + 1) ⟨q.1, q.2⟩ hqsub c hc⟩

/-- Every node of the positioned hierarchy wraps a node of the data tree
(at its depth). -/
theorem hsub_data : ∀ (n : MMNode) (d : Nat) (x y : Rat),
    ∀ p ∈ hsubnodes (setNodePositionsTopDown d x y n),
      (p.depth, p.data) ∈ subnodesD d n := by
  intro n
  induction n using mmnode_ind with
  | step n ih =>
    intro d x y p hp
    rcases hcs : n.children with _ | ⟨c0, crest⟩
    · rw [setPos_children_nil d x y n hcs] at hp
      simp only [hsubnodes, hsubnodesL, List.mem_cons] at hp
      rcases hp with rfl | hp
      · rw [subnodesD]
        exact List.mem_cons_self _ _
      · simp at hp
    · rw [setPos_children_cons d x y n c0 crest hcs] at hp
      rw [hsubnodes] at hp
      rcases List.mem_cons.1 hp with rfl | hp
      · rw [subnodesD]
        exact List.mem_cons_self _ _
      · obtain ⟨c, hcmem, x2, hpmem⟩ := mem_hsubnodesL_placeChildren (c0 :: crest) (d + 1)
          (x - accHeights 10 ((c0 :: crest).map MMNode.subtreeHeight) / 2)
          (y + n.nodeWidth + horizontalSpacing d) p hp
        have hcmem' : c ∈ n.children := by rw [hcs]; exact hcmem
        have := ih c hcmem' (d + 1) x2 (y + n.nodeWidth + horizontalSpacing d) p hpmem
        rw [subnodesD]
        refine List.mem_cons_of_mem _ ?_
        rw [subnodesDL_eq_flatten]
        simp only [List.mem_flatten, List.mem_map]
        exact ⟨subnodesD (d + 1) c, ⟨c, hcmem', rfl⟩, this⟩

/-- A chain of placed children lies entirely at or below the running top
edge. -/
theorem xChain_lb : ∀ (cs : List HNode) (cy : Rat), xChain cy cs →
    (∀ c ∈ cs, 0 ≤ c.data.subtreeHeight) →
    ∀ c ∈ cs, cy ≤ c.x - c.data.subtreeHeight / 2 := by
  intro cs
  induction cs with
  | nil => intro cy _ _ c hc; simp at hc
  | cons c0 rest ih =>
    intro cy hchain hpos c hc
    obtain ⟨hx, hrest⟩ := hchain
    rcases List.mem_cons.1 hc with rfl | hc
    · rw [hx]; ring_nf; rfl
    · have h0 : 0 ≤ c0.data.subtreeHeight := hpos c0 (by simp)
      have := ih (cy + c0.data.subtreeHeight + 10) hrest
        (fun c2 h2 => hpos c2 (by simp [h2])) c hc
      linarith

theorem xChain_pairwise : ∀ (cs : List HNode) (cy : Rat), xChain cy cs →
    (∀ c ∈ cs, 0 ≤ c.data.subtreeHeight) →
    List.Pairwise (fun a b =>
      a.x + a.data.subtreeHeight / 2 < b.x - b.data.subtreeHeight / 2) cs := by
  intro cs
  induction cs with
  | nil => intro _ _ _; exact List.Pairwise.nil
  | cons c0 rest ih =>
    intro cy hchain hpos
    obtain ⟨hx, hrest⟩ := hchain
    refine List.Pairwise.cons ?_ (ih _ hrest (fun c2 h2 => hpos c2 (by simp [h2])))
    intro b hb
    have hlb := xChain_lb rest (cy + c0.data.subtreeHeight + 10) hrest
      (fun c2 h2 => hpos c2 (by simp [h2])) b hb
    rw [hx]
    linarith

/-- Claim C4: after a full layout pass with non-negative measured
heights, the vertical spans `[x − subtreeHeight/2, x + subtreeHeight/2]`
of any two distinct siblings are disjoint (each earlier sibling lies
strictly above the next). -/
theorem claimC4 (cb : Nat → List Char → Rat × Rat) (t : MMNode)
    (hcb : ∀ d s, 0 ≤ (cb d s).2) :
    ∀ p ∈ hsubnodes (createRecursiveTreeLayout cb t),
      List.Pairwise (fun a b =>
        a.x + a.data.subtreeHeight / 2 < b.x - b.data.subtreeHeight / 2) p.children := by
  intro p hp
  obtain ⟨-, h2, h3⟩ := layout_pos_spec (calculateAllSubtreeDimensions cb 0 t) 0 100 100 p hp
  have hpdata := hsub_data (calculateAllSubtreeDimensions cb 0 t) 0 100 100 p hp
  refine xChain_pairwise p.children _ h2 ?_
  intro c hc
  have hcdata : c.data ∈ p.data.children := by
    rw [← h3]
    exact List.mem_map_of_mem (fun c => c.data) hc
  have := subnodesD_child_mem (calculateAllSubtreeDimensions cb 0 t) 0
    (p.depth, p.data) hpdata c.data hcdata
  exact calcDims_heights_nonneg cb hcb t 0 (p.depth + 1, c.data) this

theorem claimC4_witness :
    (∀ (d : Nat) (s : List Char), (0 : Rat) ≤ ((fun _ _ => ((5 : Rat), (7 : Rat))) d s).2) ∧
    ∀ p ∈ hsubnodes (createRecursiveTreeLayout (fun _ _ => (5, 7))
        ⟨['A'], 0, true, false, false, 0, 0, 0, 0,
          [⟨['B'], 1, true, false, false, 0, 0, 0, 0, []⟩,
           ⟨['C'], 1, true, false, false, 0, 0, 0, 0, []⟩]⟩),
      List.Pairwise (fun a b =>
        a.x + a.data.subtreeHeight / 2 < b.x - b.data.subtreeHeight / 2) p.children :=
  ⟨fun _ _ => by norm_num,
    claimC4 (fun _ _ => (5, 7))
      ⟨['A'], 0, true, false, false, 0, 0, 0, 0,
        [⟨['B'], 1, true, false, false, 0, 0, 0, 0, []⟩,
         ⟨['C'], 1, true, false, false, 0, 0, 0, 0, []⟩]⟩
      (fun _ _ => by norm_num)⟩

/-! ## Claim C9 — the child-level invariant of the parser -/

theorem closeTo_nil (n : Nat) : closeTo n [] = [] := by
  rw [closeTo.eq_def]

theorem closeTo_of_le (n : Nat) (s : List OpenNode) (h : s.length ≤ n) : closeTo n s = s := by
  cases s with
  | nil => exact closeTo_nil n
  | cons top rest =>
    rw [closeTo.eq_def]
    simp only [List.length_cons] at h
    simp [h]

theorem closeTo_step (n : Nat) (top p : OpenNode) (rr : List OpenNode)
    (h : ¬ (rr.length + 2 ≤ n)) :
    closeTo n (top :: p :: rr) = closeTo n (p.addChild top.close :: rr) := by
  rw [closeTo.eq_def]
  simp only [List.length_cons]
  rw [if_neg (by omega)]

theorem closeTo_length (n : Nat) (hn : 1 ≤ n) (s : List OpenNode) (hs : s ≠ []) :
    (closeTo n s).length = min n s.length := by
  induction s using closeTo.induct n with
  | case1 => simp at hs
  | case2 p rr h =>
    rw [closeTo_of_le _ _ (by simpa using h)]
    simp only [List.length_cons]
    omega
  | case3 p h => simp at h; omega
  | case4 top p rr h ih =>
    simp only [List.length_cons] at h
    rw [closeTo_step _ _ _ _ (by omega)]
    rw [ih (by simp)]
    simp only [List.length_cons]
    omega

theorem closeTo_closeTo (n m : Nat) (hm : 1 ≤ m) (hmn : m ≤ n) (s : List OpenNode) :
    closeTo m (closeTo n s) = closeTo m s := by
  induction s using closeTo.induct n with
  | case1 => rw [closeTo_nil, closeTo_nil]
  | case2 p rr h => rw [closeTo_of_le n _ (by simpa using h)]
  | case3 p h => simp at h; omega
  | case4 top p rr h ih =>
    simp only [List.length_cons] at h
    rw [closeTo_step n _ _ _ (by omega), ih, closeTo_step m _ _ _ (by omega)]

theorem spineOK_nil : spineOK [] := by
  simp [spineOK, levelsDesc]

theorem spineOK_cons (o : OpenNode) (s : List OpenNode) :
    spineOK (o :: s) ↔ o.level = s.length ∧ spineOK s := by
  simp [spineOK, levelsDesc]

theorem childLevelsOK_mk (tx : List Char) (lv : Nat) (cs : List PTree) :
    childLevelsOK (.mk tx lv cs) = childLevelsOKL lv cs := by
  rw [childLevelsOK]
  rfl

theorem childLevelsOKL_iff (lv : Nat) (cs : List PTree) :
    childLevelsOKL lv cs = true ↔
      ∀ c ∈ cs, c.level = lv + 1 ∧ childLevelsOK c = true := by
  induction cs with
  | nil => simp [childLevelsOKL]
  | cons c rest ih =>
    rw [childLevelsOKL]
    simp only [Bool.and_eq_true, beq_iff_eq, ih, List.mem_cons]
    constructor
    · rintro ⟨⟨h1, h2⟩, h3⟩ c2 hc2
      rcases hc2 with rfl | hc2
      · exact ⟨h1, h2⟩
      · exact h3 c2 hc2
    · intro h
      exact ⟨⟨(h c (Or.inl rfl)).1, (h c (Or.inl rfl)).2⟩,
        fun c2 hc2 => h c2 (Or.inr hc2)⟩

theorem addChild_level (o : OpenNode) (t : PTree) : (o.addChild t).level = o.level := rfl

theorem closeTo_inv (n : Nat) (s : List OpenNode) (hsp : spineOK s) (hk : kidsOK s) :
    spineOK (closeTo n s) ∧ kidsOK (closeTo n s) := by
  induction s using closeTo.induct n with
  | case1 => rw [closeTo_nil]; exact ⟨hsp, hk⟩
  | case2 p rr h => rw [closeTo_of_le _ _ (by simpa using h)]; exact ⟨hsp, hk⟩
  | case3 p h =>
    simp only [List.length_nil] at h
    have hn : n = 0 := by omega
    subst hn
    rw [closeTo.eq_def]
    simp
    exact ⟨hsp, hk⟩
  | case4 top p rr h ih =>
    simp only [List.length_cons] at h
    rw [closeTo_step _ _ _ _ (by omega)]
    obtain ⟨htl, hsp2⟩ := (spineOK_cons _ _).1 hsp
    obtain ⟨hpl, hsp3⟩ := (spineOK_cons _ _).1 hsp2
    simp only [List.length_cons] at htl
    apply ih
    · rw [spineOK_cons]
      exact ⟨hpl, hsp3⟩
    · intro o ho t ht
      rcases List.mem_cons.1 ho with rfl | ho2
      · simp only [OpenNode.addChild, List.mem_append, List.mem_singleton] at ht
        rcases ht with ht | rfl
        · exact hk p (List.mem_cons_of_mem _ (List.mem_cons_self _ _)) t ht
        · refine ⟨?_, ?_⟩
          · show (OpenNode.close top).level = _
            rw [addChild_level]
            simp only [OpenNode.close, PTree.level]
            omega
          · show childLevelsOK (OpenNode.close top) = true
            rw [OpenNode.close, childLevelsOK_mk, childLevelsOKL_iff]
            intro c hc
            exact hk top (List.mem_cons_self _ _) c hc
      · exact hk o (List.mem_cons_of_mem _ (List.mem_cons_of_mem _ ho2)) t ht

theorem pstep_blank (st : PState) (line : List Char) (hb : (trim line).isEmpty = true) :
    pstep st line = st := by
  simp [pstep, hb]

theorem pstep_item (st : PState) (line : List Char) (level : Nat) (ct : List Char) (il : Nat)
    (hb : ¬ (trim line).isEmpty = true) (hi : isListItem line = true)
    (hp : parseListItem line = some (level, ct, il)) :
    pstep st line =
      { spine := OpenNode.mk ct (level + 1) [] :: closeTo (level + 1) st.spine
        lastIndent := il
        hasItem := true
        maxLevel := max st.maxLevel (level + 1) } := by
  simp [pstep, hb, hi, hp]

theorem pstep_item_none (st : PState) (line : List Char)
    (hi : isListItem line = true) (hp : parseListItem line = none) :
    pstep st line = st := by
  by_cases hb : (trim line).isEmpty = true <;> simp [pstep, hb, hi, hp]

theorem pstep_cont_spine (st : PState) (line : List Char) (hi : ¬ isListItem line = true) :
    (pstep st line).spine = st.spine ∨
    ∃ top rest tx, st.spine = top :: rest ∧
      (pstep st line).spine = OpenNode.mk tx top.level top.children :: rest ∧
      st.hasItem = true := by
  by_cases hb : (trim line).isEmpty = true
  · left; rw [pstep_blank st line hb]
  · by_cases hc : (st.hasItem && decide (st.lastIndent < indentLen line)) = true
    · cases hsp : st.spine with
      | nil => left; simp [pstep, hb, hi, hc, hsp]
      | cons top rest =>
        right
        refine ⟨top, rest, top.text ++ '\n' :: trim line, rfl, ?_, ?_⟩
        · simp [pstep, hb, hi, hc, hsp]
        · simp only [Bool.and_eq_true] at hc
          exact hc.1
    · left; simp [pstep, hb, hi, hc]

theorem pfold_inv : ∀ (lines : List (List Char)) (d : Nat) (st : PState),
    levelsScan d lines = true →
    st.spine.length = d + 1 → spineOK st.spine → kidsOK st.spine →
    ∃ d2, (lines.foldl pstep st).spine.length = d2 + 1 ∧
      spineOK (lines.foldl pstep st).spine ∧ kidsOK (lines.foldl pstep st).spine := by
  intro lines
  induction lines with
  | nil => intro d st _ h1 h2 h3; exact ⟨d, h1, h2, h3⟩
  | cons line rest ih =>
    intro d st hscan hlen hsp hk
    rw [List.foldl_cons]
    by_cases hb : (trim line).isEmpty = true
    · rw [pstep_blank st line hb]
      rw [levelsScan, if_pos hb] at hscan
      exact ih d st hscan hlen hsp hk
    · by_cases hi : isListItem line = true
      · cases hp : parseListItem line with
        | none =>
          rw [pstep_item_none st line hi hp]
          rw [levelsScan, if_neg hb, if_pos hi, hp] at hscan
          exact ih d st hscan hlen hsp hk
        | some trip =>
          obtain ⟨level, ct, il⟩ := trip
          rw [pstep_item st line level ct il hb hi hp]
          rw [levelsScan, if_neg hb, if_pos hi, hp] at hscan
          simp only [Bool.and_eq_true, decide_eq_true_eq] at hscan
          obtain ⟨hld, hscan2⟩ := hscan
          have hne : st.spine ≠ [] := by
            intro h0; rw [h0] at hlen; simp at hlen
          have hcl : (closeTo (level + 1) st.spine).length = level + 1 := by
            rw [closeTo_length (level + 1) (by omega) st.spine hne, hlen]
            omega
          have hinv := closeTo_inv (level + 1) st.spine hsp hk
          apply ih (level + 1) _ hscan2
          · simp only [List.length_cons, hcl]
          · rw [spineOK_cons]
            exact ⟨hcl.symm, hinv.1⟩
          · intro o ho t ht
            rcases List.mem_cons.1 ho with rfl | ho2
            · simp at ht
            · exact hinv.2 o ho2 t ht
      · have hscan2 : levelsScan d rest = true := by
          rw [levelsScan, if_neg hb, if_neg hi] at hscan
          exact hscan
        rcases pstep_cont_spine st line hi with heq | ⟨top, rest2, tx, hst, hnew, _⟩
        · apply ih d (pstep st line) hscan2 <;> rw [heq]
          · exact hlen
          · exact hsp
          · exact hk
        · apply ih d (pstep st line) hscan2
          · rw [hnew]
            rw [hst] at hlen
            simpa using hlen
          · rw [hnew]
            rw [hst] at hsp
            rw [spineOK_cons] at hsp ⊢
            exact hsp
          · rw [hnew]
            rw [hst] at hk
            intro o ho t ht
            rcases List.mem_cons.1 ho with rfl | ho2
            · exact hk top (List.mem_cons_self _ _) t ht
            · exact hk o (List.mem_cons_of_mem _ ho2) t ht

theorem finishSpine_ok (s : List OpenNode) (d2 : Nat) (hlen : s.length = d2 + 1)
    (hsp : spineOK s) (hk : kidsOK s) : childLevelsOK (finishSpine s) = true := by
  have hne : s ≠ [] := by intro h0; rw [h0] at hlen; simp at hlen
  have hcl : (closeTo 1 s).length = 1 := by
    rw [closeTo_length 1 (by omega) s hne, hlen]; omega
  have hinv := closeTo_inv 1 s hsp hk
  rw [finishSpine]
  cases hc : closeTo 1 s with
  | nil => rw [hc] at hcl; simp at hcl
  | cons r tl =>
    have hr : r ∈ closeTo 1 s := by rw [hc]; exact List.mem_cons_self r tl
    show childLevelsOK r.close = true
    rw [OpenNode.close, childLevelsOK_mk, childLevelsOKL_iff]
    intro c hcmem
    exact hinv.2 r hr c hcmem

/- Claim C9 as stated is false: an over-indented item jumps levels.
Parsing the document whose second item is indented twelve spaces yields a
child at level 4 directly under its parent at level 1. -/
set_option maxRecDepth 4000 in
unseal removeAttrs closeTo childLevelsOK childLevelsOKL in
theorem claimC9_counterexample :
    childLevelsOK
      (parseMarkdownContent ("#mindmap\n\n* A\n            * B\n".data)
        ("test.md".data)).1 = false ∧
    (parseMarkdownContent ("#mindmap\n\n* A\n            * B\n".data)
        ("test.md".data)).1 =
      PTree.mk "test".data 0 [PTree.mk ['A'] 1 [PTree.mk ['B'] 4 []]] := by
  constructor
  · decide
  · rfl

/-- Claim C9 (amended): on documents whose successive list items never
jump more than one level deeper than the enclosing item (`docLevelsOK`),
every non-root node of the parsed tree has level exactly its parent's
level plus one. -/
theorem claimC9 (content fp : List Char) (h : docLevelsOK content = true) :
    childLevelsOK (parseMarkdownContent content fp).1 = true := by
  rw [docLevelsOK] at h
  obtain ⟨d2, hlen, hsp, hk⟩ :=
    pfold_inv (splitNl (stripIdentifier content)) 0
      ⟨[⟨getFileNameWithoutExtension fp, 0, []⟩], 0, false, 0⟩ h
      (by simp)
      (by rw [spineOK_cons]; exact ⟨rfl, spineOK_nil⟩)
      (by
        intro o ho t ht
        rcases List.mem_cons.1 ho with rfl | h0
        · simp at ht
        · simp at h0)
  simp only [parseMarkdownContent]
  exact finishSpine_ok _ d2 hlen hsp hk

set_option maxRecDepth 4000 in
unseal removeAttrs closeTo childLevelsOK childLevelsOKL in
theorem claimC9_witness :
    docLevelsOK ("#mindmap\n\n* A\n    * B\n* C\n".data) = true ∧
    childLevelsOK
      (parseMarkdownContent ("#mindmap\n\n* A\n    * B\n* C\n".data)
        ("test.md".data)).1 = true :=
  ⟨by decide, claimC9 ("#mindmap\n\n* A\n    * B\n* C\n".data) ("test.md".data) (by decide)⟩


/-! ## Claim C1 — the parse/serialize round trip -/

theorem splitNl_no_newline : ∀ (l : List Char), ∀ p ∈ splitNl l, '\n' ∉ p := by
  intro l
  induction l with
  | nil => intro p hp; rw [splitNl] at hp; simp at hp; simp [hp]
  | cons c rest ih =>
    intro p hp
    rw [splitNl] at hp
    by_cases hc : c = '\n'
    · rw [if_pos hc] at hp
      rcases List.mem_cons.1 hp with rfl | hp2
      · simp
      · exact ih p hp2
    · rw [if_neg hc] at hp
      cases hsp : splitNl rest with
      | nil => exact absurd hsp (splitNl_ne_nil rest)
      | cons s ss =>
        rw [hsp] at hp
        rcases List.mem_cons.1 hp with rfl | hp2
        · intro hmem
          rcases List.mem_cons.1 hmem with h1 | h2
          · exact hc h1.symm
          · exact ih s (hsp ▸ List.mem_cons_self s ss) h2
        · exact ih p (hsp ▸ List.mem_cons_of_mem s hp2)

theorem splitNl_append_newline : ∀ (l r : List Char), '\n' ∉ l →
    splitNl (l ++ '\n' :: r) = l :: splitNl r := by
  intro l
  induction l with
  | nil => intro r _; rw [List.nil_append, splitNl, if_pos rfl]
  | cons c l2 ih =>
    intro r hnl
    have hc : ¬ c = '\n' := fun h => hnl (h ▸ List.mem_cons_self c l2)
    rw [List.cons_append, splitNl, if_neg hc,
      ih r (fun h => hnl (List.mem_cons_of_mem c h))]

theorem splitNl_linesToChars : ∀ (ls : List (List Char)),
    (∀ l ∈ ls, '\n' ∉ l) → splitNl (linesToChars ls) = ls ++ [[]] := by
  intro ls
  induction ls with
  | nil => intro _; rw [linesToChars]; simp [splitNl]
  | cons l ls2 ih =>
    intro h
    have h1 : linesToChars (l :: ls2) = l ++ '\n' :: linesToChars ls2 := by
      rw [linesToChars, linesToChars]
      simp
    rw [h1, splitNl_append_newline l _ (h l (List.mem_cons_self l ls2)),
      ih (fun p hp => h p (List.mem_cons_of_mem l hp))]
    rfl

theorem joinNl_cons_flat : ∀ (f : List Char) (ls : List (List Char)),
    joinNl (f :: ls) = f ++ (ls.map (fun l => '\n' :: l)).flatten := by
  intro f ls
  induction ls generalizing f with
  | nil => simp [joinNl]
  | cons l ls2 ih =>
    rw [joinNl]
    · rw [ih l]
      simp
    · simp

theorem dropWhile_len_le (p : Char → Bool) : ∀ (l : List Char),
    (l.dropWhile p).length ≤ l.length := by
  intro l
  induction l with
  | nil => simp
  | cons c rest ih =>
    by_cases hc : p c = true
    · rw [List.dropWhile_cons_of_pos hc]
      simp only [List.length_cons]
      omega
    · rw [List.dropWhile_cons_of_neg hc]

theorem not_ws_head (l : List Char) (hne : l ≠ []) (htr : trim l = l) :
    ∃ c l2, l = c :: l2 ∧ isWs c = false := by
  cases l with
  | nil => exact absurd rfl hne
  | cons c l2 =>
    refine ⟨c, l2, rfl, ?_⟩
    by_contra hws
    have hws2 : isWs c = true := by
      cases h : isWs c
      · exact absurd h hws
      · rfl
    have h1 : (trim (c :: l2)).length ≤ ((c :: l2).dropWhile isWs).length := by
      rw [trim]
      calc ((((c :: l2).dropWhile isWs).reverse.dropWhile isWs).reverse).length
          = (((c :: l2).dropWhile isWs).reverse.dropWhile isWs).length := by
            rw [List.length_reverse]
        _ ≤ ((c :: l2).dropWhile isWs).reverse.length := dropWhile_len_le _ _
        _ = ((c :: l2).dropWhile isWs).length := by rw [List.length_reverse]
    rw [List.dropWhile_cons_of_pos hws2] at h1
    have h2 : (l2.dropWhile isWs).length ≤ l2.length := dropWhile_len_le _ _
    rw [htr] at h1
    simp only [List.length_cons] at h1
    omega

theorem dropWhile_ws_self (l : List Char) (hne : l ≠ []) (htr : trim l = l) :
    l.dropWhile isWs = l := by
  obtain ⟨c, l2, rfl, hc⟩ := not_ws_head l hne htr
  rw [List.dropWhile_cons_of_neg (by simp [hc])]

theorem takeWhile_ws_nil (l : List Char) (hne : l ≠ []) (htr : trim l = l) :
    l.takeWhile isWs = [] := by
  obtain ⟨c, l2, rfl, hc⟩ := not_ws_head l hne htr
  rw [List.takeWhile_cons_of_neg (by simp [hc])]

theorem dropWhile_ws_replicate (m : Nat) (l : List Char) :
    (List.replicate m ' ' ++ l).dropWhile isWs = l.dropWhile isWs := by
  induction m with
  | zero => rw [List.replicate_zero, List.nil_append]
  | succ k ih =>
    rw [List.replicate_succ, List.cons_append,
      List.dropWhile_cons_of_pos (by simp [isWs]), ih]

theorem dropWhile_st_replicate (m : Nat) (l : List Char) :
    (List.replicate m ' ' ++ l).dropWhile isSpaceTab = l.dropWhile isSpaceTab := by
  induction m with
  | zero => rw [List.replicate_zero, List.nil_append]
  | succ k ih =>
    rw [List.replicate_succ, List.cons_append,
      List.dropWhile_cons_of_pos (by simp [isSpaceTab]), ih]

theorem takeWhile_ws_replicate (m : Nat) (l : List Char) :
    (List.replicate m ' ' ++ l).takeWhile isWs =
      List.replicate m ' ' ++ l.takeWhile isWs := by
  induction m with
  | zero => rw [List.replicate_zero, List.nil_append, List.nil_append]
  | succ k ih =>
    rw [List.replicate_succ, List.cons_append,
      List.takeWhile_cons_of_pos (by simp [isWs]), ih]
    rfl

theorem takeWhile_st_replicate (m : Nat) (l : List Char) :
    (List.replicate m ' ' ++ l).takeWhile isSpaceTab =
      List.replicate m ' ' ++ l.takeWhile isSpaceTab := by
  induction m with
  | zero => rw [List.replicate_zero, List.nil_append, List.nil_append]
  | succ k ih =>
    rw [List.replicate_succ, List.cons_append,
      List.takeWhile_cons_of_pos (by simp [isSpaceTab]), ih]
    rfl

theorem trim_replicate (m : Nat) (l : List Char) :
    trim (List.replicate m ' ' ++ l) = trim l := by
  rw [trim, trim, dropWhile_ws_replicate]

theorem isListItem_replicate (m : Nat) (l : List Char) :
    isListItem (List.replicate m ' ' ++ l) = isListItem l := by
  rw [isListItem, isListItem, dropWhile_st_replicate]

theorem indentLen_replicate (m : Nat) (l : List Char) (hne : l ≠ [])
    (htr : trim l = l) : indentLen (List.replicate m ' ' ++ l) = m := by
  rw [indentLen, takeWhile_ws_replicate, takeWhile_ws_nil l hne htr]
  simp

theorem trim_cons_not_ws (c : Char) (l : List Char) (hc : isWs c = false) :
    trim (c :: l) ≠ [] := by
  rw [trim]
  intro h
  rw [List.dropWhile_cons_of_neg (by simp [hc])] at h
  have h2 : (c :: l).reverse.dropWhile isWs = [] := by
    cases hd : (c :: l).reverse.dropWhile isWs with
    | nil => rfl
    | cons x xs => rw [hd] at h; simp at h
  rw [List.dropWhile_eq_nil_iff] at h2
  have hc2 := h2 c (by simp)
  rw [hc] at hc2
  exact absurd hc2 (by simp)

theorem goodLine_facts (l : List Char) (h : goodLine l = true) :
    l ≠ [] ∧ trim l = l ∧ isListItem l = false := by
  rw [goodLine] at h
  simp only [Bool.and_eq_true, Bool.not_eq_true', beq_iff_eq] at h
  refine ⟨?_, h.1.2, h.2⟩
  intro h0
  rw [h0] at h
  simp at h

theorem goodText_facts (s : List Char) (h : goodText s = true) :
    ∃ f rest, splitNl s = f :: rest ∧ f ≠ [] ∧ trim f = f ∧
      cleanTextContent f = f ∧ ∀ l ∈ rest, goodLine l = true := by
  rw [goodText] at h
  cases hs : splitNl s with
  | nil => rw [hs] at h; simp at h
  | cons f rest =>
    rw [hs] at h
    simp only [Bool.and_eq_true, Bool.not_eq_true', beq_iff_eq,
      List.all_eq_true] at h
    refine ⟨f, rest, rfl, ?_, h.1.1.2, h.1.2, h.2⟩
    intro h0
    rw [h0] at h
    simp at h

theorem ser_item_isListItem (m : Nat) (f : List Char) (hne : f ≠ [])
    (htr : trim f = f) :
    isListItem (List.replicate (4 * m) ' ' ++ '*' :: ' ' :: f) = true := by
  rw [isListItem_replicate]
  have hd : ('*' :: ' ' :: f).dropWhile isSpaceTab = '*' :: ' ' :: f :=
    List.dropWhile_cons_of_neg (by simp [isSpaceTab])
  rw [isListItem, hd]
  simp only [isMarker]
  rw [if_pos (by decide)]
  rw [wsThenNonWs]
  rw [dropWhile_ws_self f hne htr]
  simp [isWs, hne]

theorem ser_item_parse (m : Nat) (f : List Char) (hne : f ≠ [])
    (htr : trim f = f) (hcl : cleanTextContent f = f) :
    parseListItem (List.replicate (4 * m) ' ' ++ '*' :: ' ' :: f) =
      some (m, f, 4 * m) := by
  have ht : (List.replicate (4 * m) ' ' ++ '*' :: ' ' :: f).takeWhile isSpaceTab
      = List.replicate (4 * m) ' ' := by
    rw [takeWhile_st_replicate, List.takeWhile_cons_of_neg (by simp [isSpaceTab])]
    simp
  have hd : (List.replicate (4 * m) ' ' ++ '*' :: ' ' :: f).dropWhile isSpaceTab
      = '*' :: ' ' :: f := by
    rw [dropWhile_st_replicate, List.dropWhile_cons_of_neg (by simp [isSpaceTab])]
  rw [parseListItem]
  rw [ht, hd]
  simp only [isMarker]
  rw [if_pos (by decide)]
  have hdw : (' ' :: f).dropWhile isWs = f := by
    rw [List.dropWhile_cons_of_pos (by decide), dropWhile_ws_self f hne htr]
  simp only [hdw]
  rw [if_pos (by decide)]
  rw [if_neg (by simp [hne])]
  rw [List.length_replicate, Nat.mul_div_cancel_left m (by norm_num), hcl]

theorem pstep_ser_item (st : PState) (m : Nat) (f : List Char) (hne : f ≠ [])
    (htr : trim f = f) (hcl : cleanTextContent f = f) :
    pstep st (List.replicate (4 * m) ' ' ++ '*' :: ' ' :: f) =
      { spine := OpenNode.mk f (m + 1) [] :: closeTo (m + 1) st.spine
        lastIndent := 4 * m
        hasItem := true
        maxLevel := max st.maxLevel (m + 1) } := by
  have h1 : (trim (List.replicate (4 * m) ' ' ++ '*' :: ' ' :: f)).isEmpty = false := by
    rw [trim_replicate]
    cases hx : trim ('*' :: ' ' :: f) with
    | nil => exact absurd hx (trim_cons_not_ws '*' (' ' :: f) (by decide))
    | cons a b => rfl
  have h2 := ser_item_isListItem m f hne htr
  have h3 := ser_item_parse m f hne htr hcl
  simp [pstep, h1, h2, h3]

theorem pstep_ser_cont (st : PState) (m : Nat) (l2 : List Char)
    (top : OpenNode) (rest : List OpenNode) (hg : goodLine l2 = true)
    (hsp : st.spine = top :: rest) (hli : st.lastIndent < m)
    (hhas : st.hasItem = true) :
    pstep st (List.replicate m ' ' ++ l2) =
      { st with spine := { top with text := top.text ++ '\n' :: l2 } :: rest } := by
  obtain ⟨hne, htr, hitem⟩ := goodLine_facts l2 hg
  have htl : trim (List.replicate m ' ' ++ l2) = l2 := by
    rw [trim_replicate, htr]
  have h1 : (trim (List.replicate m ' ' ++ l2)).isEmpty = false := by
    rw [htl]
    cases l2 with
    | nil => exact absurd rfl hne
    | cons a b => rfl
  have h2 : isListItem (List.replicate m ' ' ++ l2) = false := by
    rw [isListItem_replicate, hitem]
  have h3 : indentLen (List.replicate m ' ' ++ l2) = m :=
    indentLen_replicate m l2 hne htr
  simp [pstep, h1, h2, h3, hli, hhas, hsp, htl, hne]

theorem addKids_nil (s : List OpenNode) : addKids s [] = s := by
  cases s with
  | nil => rw [addKids]
  | cons top rest =>
    rw [addKids]
    simp

theorem addKids_length (s : List OpenNode) (ts : List PTree) :
    (addKids s ts).length = s.length := by
  cases s with
  | nil => rw [addKids]
  | cons top rest =>
    rw [addKids]
    simp

theorem addKids_append (s : List OpenNode) (a b : List PTree) :
    addKids (addKids s a) b = addKids s (a ++ b) := by
  cases s with
  | nil => rw [addKids, addKids, addKids]
  | cons top rest =>
    rw [addKids, addKids, addKids]
    simp

theorem fold_conts : ∀ (ls : List (List Char)) (m li ml : Nat)
    (top : OpenNode) (rest : List OpenNode),
    (∀ l ∈ ls, goodLine l = true) → li < m →
    (ls.map (fun l2 => List.replicate m ' ' ++ l2)).foldl pstep
        ⟨top :: rest, li, true, ml⟩ =
      ⟨{ top with text := top.text ++ (ls.map (fun l => '\n' :: l)).flatten } :: rest,
        li, true, ml⟩ := by
  intro ls
  induction ls with
  | nil =>
    intro m li ml top rest _ _
    simp
  | cons l ls2 ih =>
    intro m li ml top rest hg hli
    rw [List.map_cons, List.foldl_cons]
    rw [pstep_ser_cont ⟨top :: rest, li, true, ml⟩ m l top rest
      (hg l (List.mem_cons_self l ls2)) rfl hli rfl]
    rw [ih m li ml { top with text := top.text ++ '\n' :: l } rest
      (fun p hp => hg p (List.mem_cons_of_mem l hp)) hli]
    simp [List.append_assoc]

theorem serForestLines_flatten (il : Nat) : ∀ (cs : List PTree),
    (cs.map (serNodeLines il)).flatten = serForestLines il cs := by
  intro cs
  induction cs with
  | nil => rw [serForestLines]; rfl
  | cons t ts ih => rw [serForestLines, List.map_cons, List.flatten_cons, ih]

theorem serForest_eq_attach (il : Nat) (cs : List PTree) :
    (cs.attach.map (fun c => serNodeLines il c.1)).flatten = serForestLines il cs := by
  rw [List.attach_map_val cs (serNodeLines il), serForestLines_flatten]

theorem serNodeLines_mk (il : Nat) (tx : List Char) (lv : Nat) (cs : List PTree)
    (hlv : lv ≠ 0) (f : List Char) (rest : List (List Char))
    (hsp : splitNl tx = f :: rest) :
    serNodeLines il (.mk tx lv cs) =
      (List.replicate (4 * (il - 1)) ' ' ++ '*' :: ' ' :: f) ::
        (rest.map (fun l2 => List.replicate (4 * (il - 1)) ' ' ++ ' ' :: ' ' :: l2) ++
          serForestLines (il + 1) cs) := by
  rw [serNodeLines]
  rw [if_neg hlv, hsp, serForest_eq_attach]
  simp

theorem serNodeLines_zero (il : Nat) (tx : List Char) (cs : List PTree) :
    serNodeLines il (.mk tx 0 cs) = [] := by
  rw [serNodeLines]
  simp

theorem mem_serForestLines (il : Nat) : ∀ (cs : List PTree) (l : List Char),
    l ∈ serForestLines il cs → ∃ c ∈ cs, l ∈ serNodeLines il c := by
  intro cs
  induction cs with
  | nil => intro l hl; rw [serForestLines] at hl; simp at hl
  | cons t ts ih =>
    intro l hl
    rw [serForestLines] at hl
    rcases List.mem_append.1 hl with h | h
    · exact ⟨t, List.mem_cons_self t ts, h⟩
    · obtain ⟨c, hc, hlc⟩ := ih l h
      exact ⟨c, List.mem_cons_of_mem t hc, hlc⟩

theorem serNodeLines_no_nl : ∀ (k : Nat) (t : PTree), sizeOf t ≤ k → ∀ (il : Nat),
    ∀ l ∈ serNodeLines il t, '\n' ∉ l := by
  intro k
  induction k with
  | zero => intro t ht; cases t; simp at ht
  | succ k ih =>
    intro t ht il l hl hnl
    cases t with
    | mk tx lv cs =>
      by_cases hlv : lv = 0
      · subst hlv
        rw [serNodeLines_zero] at hl
        simp at hl
      · cases hsp : splitNl tx with
        | nil => exact absurd hsp (splitNl_ne_nil tx)
        | cons f rest =>
          have hcs : sizeOf cs ≤ k := by
            simp only [PTree.mk.sizeOf_spec] at ht
            omega
          rw [serNodeLines_mk il tx lv cs hlv f rest hsp] at hl
          rcases List.mem_cons.1 hl with rfl | hl2
          · rcases List.mem_append.1 hnl with h | h
            · have := List.eq_of_mem_replicate h
              simp at this
            · rcases List.mem_cons.1 h with h2 | h2
              · simp at h2
              · rcases List.mem_cons.1 h2 with h3 | h3
                · simp at h3
                · exact splitNl_no_newline tx f
                    (hsp ▸ List.mem_cons_self f rest) h3
          · rcases List.mem_append.1 hl2 with h | h
            · obtain ⟨l2, hl2m, rfl⟩ := List.mem_map.1 h
              rcases List.mem_append.1 hnl with h4 | h4
              · have := List.eq_of_mem_replicate h4
                simp at this
              · rcases List.mem_cons.1 h4 with h5 | h5
                · simp at h5
                · rcases List.mem_cons.1 h5 with h6 | h6
                  · simp at h6
                  · exact splitNl_no_newline tx l2
                      (hsp ▸ List.mem_cons_of_mem f hl2m) h6
            · obtain ⟨c, hcm, hlc⟩ := mem_serForestLines (il + 1) cs l h
              have hsc : sizeOf c ≤ k := by
                have := List.sizeOf_lt_of_mem hcm
                omega
              exact ih c hsc (il + 1) l hlc hnl

theorem serForestLines_no_nl (il : Nat) (cs : List PTree) :
    ∀ l ∈ serForestLines il cs, '\n' ∉ l := by
  intro l hl
  obtain ⟨c, hc, hlc⟩ := mem_serForestLines il cs l hl
  exact serNodeLines_no_nl (sizeOf c) c le_rfl il l hlc

theorem serF_fold : ∀ (k : Nat) (ts : List PTree), sizeOf ts ≤ k →
    ∀ (il : Nat) (st : PState) (base : List OpenNode),
    canonForest il ts = true → 1 ≤ il →
    closeTo il st.spine = base → base.length = il →
    closeTo il (((serForestLines il ts).foldl pstep st).spine) = addKids base ts := by
  intro k
  induction k with
  | zero => intro ts hts; cases ts <;> simp at hts
  | succ k ih =>
    intro ts hts il st base hcf hil hbase hlen
    cases ts with
    | nil =>
      rw [serForestLines, List.foldl_nil, addKids_nil]
      exact hbase
    | cons t ts2 =>
      cases t with
      | mk tx lv cs =>
        rw [canonForest] at hcf
        simp only [Bool.and_eq_true] at hcf
        obtain ⟨hca, hcf2⟩ := hcf
        rw [canonAt] at hca
        simp only [Bool.and_eq_true, beq_iff_eq] at hca
        obtain ⟨⟨hlv, hgt⟩, hccs⟩ := hca
        subst lv
        obtain ⟨f, rest, hsp, hfne, hftr, hfcl, hrg⟩ := goodText_facts tx hgt
        have hts2 : sizeOf ts2 ≤ k := by
          simp only [List.cons.sizeOf_spec] at hts
          omega
        have hcs : sizeOf cs ≤ k := by
          simp only [List.cons.sizeOf_spec, PTree.mk.sizeOf_spec] at hts
          omega
        have hm : il - 1 + 1 = il := by omega
        rw [serForestLines, List.foldl_append,
          serNodeLines_mk il tx il cs (by omega) f rest hsp,
          List.foldl_cons, List.foldl_append,
          pstep_ser_item st (il - 1) f hfne hftr hfcl, hm, hbase]
        have hrepl : ∀ l2 : List Char,
            List.replicate (4 * (il - 1)) ' ' ++ ' ' :: ' ' :: l2 =
              List.replicate (4 * (il - 1) + 2) ' ' ++ l2 := by
          intro l2
          rw [List.replicate_add]
          simp
        rw [List.map_eq_map_iff.mpr (fun l2 _ => hrepl l2)]
        rw [fold_conts rest (4 * (il - 1) + 2) (4 * (il - 1))
          (max st.maxLevel il) (OpenNode.mk f il []) base hrg (by omega)]
        have htx : f ++ (rest.map (fun l => '\n' :: l)).flatten = tx := by
          rw [← joinNl_cons_flat, ← hsp, joinNl_splitNl]
        simp only [htx]
        have hkids := ih cs hcs (il + 1)
          ⟨OpenNode.mk tx il [] :: base, 4 * (il - 1), true, max st.maxLevel il⟩
          (OpenNode.mk tx il [] :: base) hccs (by omega)
          (closeTo_of_le (il + 1) _ (by simp [hlen]))
          (by simp [hlen])
        have hclose : closeTo il
            (((serForestLines (il + 1) cs).foldl pstep
              ⟨OpenNode.mk tx il [] :: base, 4 * (il - 1), true,
                max st.maxLevel il⟩).spine) =
            addKids base [PTree.mk tx il cs] := by
          rw [← closeTo_closeTo (il + 1) il hil (by omega), hkids]
          cases base with
          | nil => simp at hlen; omega
          | cons b br =>
            rw [addKids]
            simp only [List.nil_append]
            have hbr : br.length + 1 = il := by simpa using hlen
            rw [closeTo_step il _ b br (by omega)]
            rw [closeTo_of_le il _ (by simp only [List.length_cons]; omega)]
            rw [addKids]
            rfl
        have hfin := ih ts2 hts2 il
          ((serForestLines (il + 1) cs).foldl pstep
            ⟨OpenNode.mk tx il [] :: base, 4 * (il - 1), true, max st.maxLevel il⟩)
          (addKids base [PTree.mk tx il cs]) hcf2 hil hclose
          (by rw [addKids_length]; exact hlen)
        rw [hfin, addKids_append]
        rfl

theorem linesToChars_cons (l : List Char) (ls : List (List Char)) :
    linesToChars (l :: ls) = (l ++ ['\n']) ++ linesToChars ls := by
  rw [linesToChars, linesToChars, List.map_cons, List.flatten_cons]

theorem linesToChars_app (a b : List (List Char)) :
    linesToChars (a ++ b) = linesToChars a ++ linesToChars b := by
  rw [linesToChars, linesToChars, linesToChars, List.map_append, List.flatten_append]

theorem forest_linesToChars (L : Nat) : ∀ (ts : List PTree),
    canonForest L ts = true →
    (ts.map (fun c => linesToChars (serNodeLines c.level c))).flatten =
      linesToChars (serForestLines L ts) := by
  intro ts
  induction ts with
  | nil => intro _; rw [serForestLines]; rfl
  | cons t ts2 ih =>
    intro hc
    rw [canonForest] at hc
    simp only [Bool.and_eq_true] at hc
    obtain ⟨hca, hc2⟩ := hc
    cases t with
    | mk tx lv cs =>
      rw [canonAt] at hca
      simp only [Bool.and_eq_true, beq_iff_eq] at hca
      rw [List.map_cons, List.flatten_cons, serForestLines, ih hc2,
        linesToChars_app]
      have hlv : PTree.level (.mk tx lv cs) = L := hca.1.1
      rw [hlv]

theorem gen_eq_forest (rt : List Char) (ts : List PTree)
    (hc : canonForest 1 ts = true) :
    generateMarkdownFromNodes (PTree.mk rt 0 ts) =
      "#mindmap\n\n".data ++ linesToChars (serForestLines 1 ts) := by
  rw [generateMarkdownFromNodes]
  have hch : PTree.children (.mk rt 0 ts) = ts := rfl
  rw [hch, forest_linesToChars 1 ts hc]

theorem dropWhile_ws_serForest (ts : List PTree) (hc : canonForest 1 ts = true) :
    (linesToChars (serForestLines 1 ts)).dropWhile isWs =
      linesToChars (serForestLines 1 ts) := by
  cases ts with
  | nil => rw [serForestLines]; rfl
  | cons t ts2 =>
    rw [canonForest] at hc
    simp only [Bool.and_eq_true] at hc
    obtain ⟨hca, hc2⟩ := hc
    cases t with
    | mk tx lv cs =>
      rw [canonAt] at hca
      simp only [Bool.and_eq_true, beq_iff_eq] at hca
      obtain ⟨⟨hlv, hgt⟩, hccs⟩ := hca
      obtain ⟨f, rest, hsp, hfne, hftr, hfcl, hrg⟩ := goodText_facts tx hgt
      rw [serForestLines, serNodeLines_mk 1 tx lv cs (by omega) f rest hsp]
      have h0 : (4 : Nat) * (1 - 1) = 0 := by norm_num
      rw [h0, List.replicate_zero, List.nil_append, List.cons_append,
        linesToChars_cons]
      rw [List.cons_append, List.cons_append]
      rw [List.dropWhile_cons_of_neg (by simp [isWs])]

theorem reparse (fp rt : List Char) (ts : List PTree)
    (hc : canonForest 1 ts = true) :
    (parseMarkdownContent (generateMarkdownFromNodes (PTree.mk rt 0 ts)) fp).1 =
      PTree.mk (getFileNameWithoutExtension fp) 0 ts := by
  rw [gen_eq_forest rt ts hc]
  have hshape : "#mindmap\n\n".data ++ linesToChars (serForestLines 1 ts) =
      "#mindmap".data ++ ('\n' :: '\n' :: linesToChars (serForestLines 1 ts)) := rfl
  have hstrip : stripIdentifier ("#mindmap\n\n".data ++
      linesToChars (serForestLines 1 ts)) = linesToChars (serForestLines 1 ts) := by
    rw [stripIdentifier, hshape]
    have h8 : ("#mindmap".data : List Char).length = 8 := rfl
    rw [if_pos (by rw [← h8, List.take_left])]
    rw [← h8, List.drop_left]
    rw [List.dropWhile_cons_of_pos (by decide), List.dropWhile_cons_of_pos (by decide)]
    exact dropWhile_ws_serForest ts hc
  have hsplit : splitNl (linesToChars (serForestLines 1 ts)) =
      serForestLines 1 ts ++ [[]] :=
    splitNl_linesToChars (serForestLines 1 ts) (serForestLines_no_nl 1 ts)
  simp only [parseMarkdownContent]
  rw [hstrip, hsplit, List.foldl_append]
  have hfold := serF_fold (sizeOf ts) ts le_rfl 1
    ⟨[⟨getFileNameWithoutExtension fp, 0, []⟩], 0, false, 0⟩
    [⟨getFileNameWithoutExtension fp, 0, []⟩] hc le_rfl
    (closeTo_of_le 1 _ (by simp)) (by simp)
  rw [List.foldl_cons, List.foldl_nil, pstep_blank _ [] (by decide)]
  rw [finishSpine, hfold, addKids]
  simp only [List.nil_append]
  rfl

theorem addChild_text (o : OpenNode) (t : PTree) : (o.addChild t).text = o.text := rfl

theorem closeTo_singleton (n : Nat) (o : OpenNode) : closeTo n [o] = [o] := by
  by_cases h : 1 ≤ n
  · exact closeTo_of_le n [o] (by simpa using h)
  · have hn : n = 0 := by omega
    subst hn
    rw [closeTo.eq_def]
    simp

theorem closeTo_last (n : Nat) : ∀ (k : Nat) (pre : List OpenNode) (lastO : OpenNode),
    pre.length ≤ k →
    ∃ pre2 lastO2, closeTo n (pre ++ [lastO]) = pre2 ++ [lastO2] ∧
      lastO2.text = lastO.text ∧ lastO2.level = lastO.level := by
  intro k
  induction k with
  | zero =>
    intro pre lastO hk
    cases pre with
    | nil =>
      exact ⟨[], lastO, by rw [List.nil_append, closeTo_singleton], rfl, rfl⟩
    | cons a pre2 => simp at hk
  | succ k ih =>
    intro pre lastO hk
    cases pre with
    | nil =>
      exact ⟨[], lastO, by rw [List.nil_append, closeTo_singleton], rfl, rfl⟩
    | cons a pre2 =>
      by_cases hle : (pre2 ++ [lastO]).length + 1 ≤ n
      · rw [List.cons_append, closeTo_of_le n _ (by simpa using hle)]
        exact ⟨a :: pre2, lastO, rfl, rfl, rfl⟩
      · cases pre2 with
        | nil =>
          rw [List.nil_append] at hle
          simp only [List.cons_append, List.nil_append]
          rw [closeTo_step n a lastO [] (by simpa using hle)]
          obtain ⟨p2, l2, heq, ht, hl⟩ := ih [] (lastO.addChild a.close) (by simp)
          rw [List.nil_append] at heq
          exact ⟨p2, l2, heq, by rw [ht, addChild_text], by rw [hl, addChild_level]⟩
        | cons b pre3 =>
          rw [List.cons_append, List.cons_append]
          rw [closeTo_step n a b (pre3 ++ [lastO])
            (by simp only [List.length_append, List.length_cons] at hle ⊢; omega)]
          obtain ⟨p2, l2, heq, ht, hl⟩ := ih (b.addChild a.close :: pre3) lastO
            (by simp only [List.length_cons] at hk ⊢; omega)
          rw [List.cons_append] at heq
          exact ⟨p2, l2, heq, ht, hl⟩

theorem pstep_hasItem_nonitem (st : PState) (line : List Char)
    (hi : ¬ isListItem line = true) : (pstep st line).hasItem = st.hasItem := by
  by_cases hb : (trim line).isEmpty = true
  · rw [pstep_blank st line hb]
  · by_cases hc : (st.hasItem && decide (st.lastIndent < indentLen line)) = true
    · cases hspn : st.spine with
      | nil => simp [pstep, hb, hi, hc, hspn]
      | cons top rest => simp [pstep, hb, hi, hc, hspn]
    · simp [pstep, hb, hi, hc]

theorem pstep_rootInv (st : PState) (line fn : List Char)
    (h : ∃ pre lastO, st.spine = pre ++ [lastO] ∧ lastO.text = fn ∧
      lastO.level = 0 ∧ (st.hasItem = true → pre ≠ [])) :
    ∃ pre lastO, (pstep st line).spine = pre ++ [lastO] ∧ lastO.text = fn ∧
      lastO.level = 0 ∧ ((pstep st line).hasItem = true → pre ≠ []) := by
  obtain ⟨pre, lastO, hsp, htx, hlv, hhi⟩ := h
  by_cases hb : (trim line).isEmpty = true
  · rw [pstep_blank st line hb]
    exact ⟨pre, lastO, hsp, htx, hlv, hhi⟩
  · by_cases hi : isListItem line = true
    · cases hp : parseListItem line with
      | none =>
        rw [pstep_item_none st line hi hp]
        exact ⟨pre, lastO, hsp, htx, hlv, hhi⟩
      | some trip =>
        obtain ⟨level, ct, il⟩ := trip
        rw [pstep_item st line level ct il hb hi hp]
        obtain ⟨pre2, lastO2, heq, ht2, hl2⟩ :=
          closeTo_last (level + 1) pre.length pre lastO le_rfl
        refine ⟨OpenNode.mk ct (level + 1) [] :: pre2, lastO2, ?_,
          ht2.trans htx, hl2.trans hlv, fun _ => by simp⟩
        show OpenNode.mk ct (level + 1) [] :: closeTo (level + 1) st.spine = _
        rw [hsp, heq, List.cons_append]
    · rcases pstep_cont_spine st line hi with heq | ⟨top, rest, tx2, hst, hnew, hhas⟩
      · refine ⟨pre, lastO, ?_, htx, hlv, ?_⟩
        · rw [heq, hsp]
        · rw [pstep_hasItem_nonitem st line hi]
          exact hhi
      · cases pre with
        | nil =>
          exact absurd rfl (hhi hhas)
        | cons a pre2 =>
          rw [hsp, List.cons_append] at hst
          injection hst with ha hr
          refine ⟨OpenNode.mk tx2 top.level top.children :: pre2, lastO, ?_,
            htx, hlv, fun _ => by simp⟩
          rw [hnew, ← hr]
          rw [List.cons_append]

theorem parse_root_facts (content fp : List Char) :
    (parseMarkdownContent content fp).1.text = getFileNameWithoutExtension fp ∧
    (parseMarkdownContent content fp).1.level = 0 := by
  have hfold : ∀ (lines : List (List Char)) (st : PState),
      (∃ pre lastO, st.spine = pre ++ [lastO] ∧
        lastO.text = getFileNameWithoutExtension fp ∧
        lastO.level = 0 ∧ (st.hasItem = true → pre ≠ [])) →
      ∃ pre lastO, (lines.foldl pstep st).spine = pre ++ [lastO] ∧
        lastO.text = getFileNameWithoutExtension fp ∧ lastO.level = 0 ∧
        ((lines.foldl pstep st).hasItem = true → pre ≠ []) := by
    intro lines
    induction lines with
    | nil => intro st h; exact h
    | cons l ls ih =>
      intro st h
      rw [List.foldl_cons]
      exact ih _ (pstep_rootInv st l _ h)
  obtain ⟨pre, lastO, hsp, htx, hlv, _⟩ := hfold (splitNl (stripIdentifier content))
    ⟨[⟨getFileNameWithoutExtension fp, 0, []⟩], 0, false, 0⟩
    ⟨[], ⟨getFileNameWithoutExtension fp, 0, []⟩, rfl, rfl, rfl, by simp⟩
  obtain ⟨pre2, lastO2, heq, ht2, hl2⟩ := closeTo_last 1 pre.length pre lastO le_rfl
  have hlen1 : (closeTo 1 (pre ++ [lastO])).length = 1 := by
    rw [closeTo_length 1 le_rfl _ (by simp)]
    simp
  rw [heq] at hlen1
  have hpre2 : pre2 = [] := by
    cases pre2 with
    | nil => rfl
    | cons x xs => simp at hlen1
  subst hpre2
  rw [List.nil_append] at heq
  simp only [parseMarkdownContent]
  rw [finishSpine, hsp, heq]
  constructor
  · show (OpenNode.close lastO2).text = _
    rw [OpenNode.close]
    show lastO2.text = _
    rw [ht2, htx]
  · show (OpenNode.close lastO2).level = _
    rw [OpenNode.close]
    show lastO2.level = _
    rw [hl2, hlv]

/- Claim C1 as stated is false: `cleanTextContent` is not idempotent.  The
single `[key:value]`-removal pass of the first parse can create a new
match that only the second parse removes, so the second serialization
differs from the first.  On `"* [x[a:b]y:z]"` the first parse keeps
`"[xy:z]"`, the rewrite of that document parses it to the empty text, and
the two serializations differ. -/
set_option maxRecDepth 4000 in
unseal removeAttrs closeTo serNodeLines in
theorem claimC1_counterexample :
    generateMarkdownFromNodes
        (parseMarkdownContent
          (generateMarkdownFromNodes
            (parseMarkdownContent ("#mindmap\n\n* [x[a:b]y:z]\n".data)
              ("test.md".data)).1)
          ("test.md".data)).1 ≠
      generateMarkdownFromNodes
        (parseMarkdownContent ("#mindmap\n\n* [x[a:b]y:z]\n".data)
          ("test.md".data)).1 ∧
    (parseMarkdownContent ("#mindmap\n\n* [x[a:b]y:z]\n".data)
        ("test.md".data)).1 =
      PTree.mk "test".data 0 [PTree.mk "[xy:z]".data 1 []] ∧
    (parseMarkdownContent
        (generateMarkdownFromNodes
          (parseMarkdownContent ("#mindmap\n\n* [x[a:b]y:z]\n".data)
            ("test.md".data)).1)
        ("test.md".data)).1 =
      PTree.mk "test".data 0 [PTree.mk [] 1 []] := by
  refine ⟨by decide, rfl, rfl⟩

/-- Claim C1 (amended): for documents whose first parse is canonical — the
root at level 0 and every descendant one level below its parent, with
texts that are trim-stable, non-empty per line, free of further
`[key:value]` matches, and whose continuation lines are not themselves
list items — serializing the parse and parsing again reproduces the tree
exactly (same texts, levels and child order), and a second
parse-serialize application changes nothing. -/
theorem claimC1 (content fp : List Char)
    (h : canonRoot (parseMarkdownContent content fp).1 = true) :
    (parseMarkdownContent (generateMarkdownFromNodes
        (parseMarkdownContent content fp).1) fp).1 =
      (parseMarkdownContent content fp).1 ∧
    generateMarkdownFromNodes (parseMarkdownContent (generateMarkdownFromNodes
        (parseMarkdownContent content fp).1) fp).1 =
      generateMarkdownFromNodes (parseMarkdownContent content fp).1 := by
  have hroot := parse_root_facts content fp
  rw [canonRoot] at h
  simp only [Bool.and_eq_true, beq_iff_eq] at h
  have hfirst : (parseMarkdownContent (generateMarkdownFromNodes
      (parseMarkdownContent content fp).1) fp).1 =
      (parseMarkdownContent content fp).1 := by
    cases hP : (parseMarkdownContent content fp).1 with
    | mk tx lv cs =>
      rw [hP] at h hroot
      simp only [PTree.text, PTree.level, PTree.children] at h hroot
      obtain ⟨htx, hlv⟩ := hroot
      subst hlv
      subst htx
      rw [reparse fp (getFileNameWithoutExtension fp) cs h.2]
  exact ⟨hfirst, by rw [hfirst]⟩

set_option maxRecDepth 8000 in
unseal removeAttrs closeTo serNodeLines in
theorem claimC1_witness :
    canonRoot
      (parseMarkdownContent ("#mindmap\n\n* A\n  cont\n    * B\n* C\n".data)
        ("test.md".data)).1 = true ∧
    ((parseMarkdownContent
        (generateMarkdownFromNodes
          (parseMarkdownContent ("#mindmap\n\n* A\n  cont\n    * B\n* C\n".data)
            ("test.md".data)).1)
        ("test.md".data)).1 =
      (parseMarkdownContent ("#mindmap\n\n* A\n  cont\n    * B\n* C\n".data)
        ("test.md".data)).1 ∧
    generateMarkdownFromNodes
        (parseMarkdownContent
          (generateMarkdownFromNodes
            (parseMarkdownContent ("#mindmap\n\n* A\n  cont\n    * B\n* C\n".data)
              ("test.md".data)).1)
          ("test.md".data)).1 =
      generateMarkdownFromNodes
        (parseMarkdownContent ("#mindmap\n\n* A\n  cont\n    * B\n* C\n".data)
          ("test.md".data)).1) :=
  ⟨by decide,
    claimC1 ("#mindmap\n\n* A\n  cont\n    * B\n* C\n".data) ("test.md".data)
      (by decide)⟩

end MindMap
